import Mathlib

/-!
# Verification of the dynamic form engine of `qt_app/ui/protocol_builder_qt.py`

This file gives a shallow embedding of the form-engine parts of
`ProtocolBuilderQt` (schema model, field bindings and their value codec,
hidden-field triggers, formula evaluation, reference-range checking, the
load/collect/persist cycle from `qt_app/repo.py`) and proves properties
about them.

Modelling conventions:
* Python strings are Lean `String`s; the helpers `pyStrip`, `pyReplace`,
  `pySplit`, `pyContainsSub` reproduce `str.strip()`, `str.replace`,
  `str.split(sep)` and the `in` substring test.  `str.strip()` strips the
  ASCII whitespace characters (the rare non-ASCII Unicode whitespace is not
  modelled); `\w` of the `re` module is modelled as ASCII alphanumerics,
  `_`, and the Cyrillic block U+0400–U+04FF used by this application.
* Python floats are modelled as exact fractions (`PyFloat`).  All
  arithmetic the formulas of this engine perform (`+ - * / ( )` on decimal
  literals) is exact on doubles up to the usual 1 ulp rounding, and every
  property below only observes results after rounding to a configured
  decimal precision, where the fraction model and the double model agree
  except at astronomically fine precisions the application never uses.
  `round(x, p)` and the `f"{x:.pf}"` format both use round-half-to-even,
  modelled by `roundHalfEven`/`formatFixed`.
* Qt widgets are modelled by the `Widget` inductive: only the state the
  engine reads or writes (texts, item lists, check marks, dates, times) is
  kept.  `QWidget.setVisible`/`isVisible` are modelled as a boolean flag on
  the binding (the engine-level visibility; window-level compounding of
  ancestor visibility is presentation state outside the engine model).
-/

namespace FormEngine

/-! ## Python string primitives -/

/-- The characters `str.strip()` removes (ASCII whitespace). -/
def pyIsSpace (c : Char) : Bool :=
  c = ' ' || c = '\t' || c = '\n' || c = '\r' || c = '\x0b' || c = '\x0c'

/-- `re` module `\w` (word character): ASCII alphanumerics, underscore, and
the Cyrillic block used by the application's Russian field names. -/
def pyIsWord (c : Char) : Bool :=
  (('a' ≤ c && c ≤ 'z') || ('A' ≤ c && c ≤ 'Z') || ('0' ≤ c && c ≤ '9')
    || c = '_' || (0x400 ≤ c.val && c.val ≤ 0x4FF))

/-- A `[\w\s]` character (word or whitespace), the character class of the
formula-reference pattern. -/
def pyIsWordSpace (c : Char) : Bool := pyIsWord c || pyIsSpace c

/-- `str.strip()` on a character list. -/
def pyStripList (l : List Char) : List Char :=
  ((l.dropWhile pyIsSpace).reverse.dropWhile pyIsSpace).reverse

/-- Python `str.strip()`. -/
def pyStrip (s : String) : String := String.mk (pyStripList s.data)

/-- One step of `str.replace`: if `pat` starts here, emit `rep` and skip it. -/
def pyReplaceList (fuel : Nat) (pat rep cs : List Char) : List Char :=
  match fuel, cs with
  | 0, cs => cs
  | _, [] => []
  | fuel + 1, c :: rest =>
    if pat ≠ [] ∧ pat.isPrefixOf (c :: rest) then
      rep ++ pyReplaceList fuel pat rep ((c :: rest).drop pat.length)
    else
      c :: pyReplaceList fuel pat rep rest

/-- Python `str.replace(pat, rep)` (all non-overlapping occurrences, left to
right; the empty-pattern corner case is not used by the engine and is
modelled as the identity). -/
def pyReplace (s pat rep : String) : String :=
  String.mk (pyReplaceList s.data.length pat.data rep.data s.data)

/-- Python `pat in s` (substring containment). -/
def pyContainsSubList : List Char → List Char → Bool
  | _, [] => true
  | [], _ => false
  | c :: rest, pat => pat.isPrefixOf (c :: rest) || pyContainsSubList rest pat

def pyContainsSub (s pat : String) : Bool := pyContainsSubList s.data pat.data

/-- Python `s.split(sep)` (with an explicit non-empty separator). -/
def pySplitList (fuel : Nat) (sep : List Char) (cs : List Char) (acc : List Char) :
    List (List Char) :=
  match fuel, cs with
  | 0, cs => [acc.reverse ++ cs]
  | _, [] => [acc.reverse]
  | fuel + 1, c :: rest =>
    if sep ≠ [] ∧ sep.isPrefixOf (c :: rest) then
      acc.reverse :: pySplitList fuel sep ((c :: rest).drop sep.length) []
    else
      pySplitList fuel sep rest (c :: acc)

def pySplit (s sep : String) : List String :=
  (pySplitList s.data.length sep.data s.data []).map String.mk

/-- Python `sep.join(parts)`. -/
def pyJoin (sep : String) (parts : List String) : String :=
  String.intercalate sep parts

/-! ## Decimal rendering and parsing -/

/-- Decimal digits of `n`, most significant first (`fuel`-driven). -/
def natDigitsAux (fuel n : Nat) : List Char :=
  match fuel with
  | 0 => []
  | fuel + 1 =>
    if n < 10 then [Char.ofNat (48 + n)]
    else natDigitsAux fuel (n / 10) ++ [Char.ofNat (48 + n % 10)]

/-- Decimal rendering of a natural number. -/
def natToDigits (n : Nat) : List Char := natDigitsAux (n + 1) n

/-- Numeric value of a list of decimal digit characters. -/
def digitsToNat (l : List Char) : Nat :=
  l.foldl (fun acc c => acc * 10 + (c.toNat - 48)) 0

def isDigitChar (c : Char) : Bool := '0' ≤ c && c ≤ '9'

/-- Left-pad a digit list with zeros to width `w`. -/
def padZeros (w : Nat) (l : List Char) : List Char :=
  List.replicate (w - l.length) '0' ++ l

/-! ## Python floats as exact fractions

`Rat`'s arithmetic normalizes through `Nat.gcd` and is not reducible by the
kernel, so the model uses an explicit fraction type with executable
operations.  Every operation keeps the denominator positive; `toRat` maps
into `ℚ` for the semantic statements. -/

/-- An exact fraction modelling a Python float.  All constructors below
produce `0 < den`. -/
structure PyFloat where
  num : Int
  den : Int
  deriving DecidableEq, Repr

namespace PyFloat

def toRat (q : PyFloat) : ℚ := (q.num : ℚ) / (q.den : ℚ)

def ofInt (n : Int) : PyFloat := ⟨n, 1⟩

instance : OfNat PyFloat n := ⟨ofInt n⟩

def add (a b : PyFloat) : PyFloat := ⟨a.num * b.den + b.num * a.den, a.den * b.den⟩

def neg (a : PyFloat) : PyFloat := ⟨-a.num, a.den⟩

def sub (a b : PyFloat) : PyFloat := add a (neg b)

def mul (a b : PyFloat) : PyFloat := ⟨a.num * b.num, a.den * b.den⟩

/-- True division; `none` models Python's `ZeroDivisionError`. -/
def divQ (a b : PyFloat) : Option PyFloat :=
  if b.num = 0 then none
  else
    let n := a.num * b.den
    let d := a.den * b.num
    if d < 0 then some ⟨-n, -d⟩ else some ⟨n, d⟩

/-- `a < b` (valid when denominators are positive). -/
def blt (a b : PyFloat) : Bool := a.num * b.den < b.num * a.den

/-- `a ≤ b` (valid when denominators are positive). -/
def ble (a b : PyFloat) : Bool := a.num * b.den ≤ b.num * a.den

/-- `math.floor`, exact on the fraction. -/
def floorI (a : PyFloat) : Int := a.num.fdiv a.den

/-- Is the value an integer? -/
def isInt (a : PyFloat) : Bool := a.num % a.den = 0

/-- Multiply by `10 ^ p`. -/
def mulPow10 (a : PyFloat) (p : Nat) : PyFloat := ⟨a.num * 10 ^ p, a.den⟩

/-- The well-formedness invariant every constructor preserves. -/
def wf (a : PyFloat) : Prop := 0 < a.den

end PyFloat

/-- Round-half-to-even to an integer, as Python `round` and the fixed-point
`format` do (on the exact fraction; a double rounds half-even on its binary
value, which agrees except when the decimal operand sits within one ulp of
a tie, a situation the engine's two/three-decimal data never produces). -/
def roundHalfEven (q : PyFloat) : Int :=
  let f : Int := q.floorI
  let r2 : Int := 2 * (q.num - f * q.den)
  if r2 < q.den then f
  else if q.den < r2 then f + 1
  else if f % 2 = 0 then f else f + 1

/-- Python `round(q, p)`. -/
def roundPrec (q : PyFloat) (p : Nat) : PyFloat :=
  ⟨roundHalfEven (q.mulPow10 p), 10 ^ p⟩

/-- Python `f"{q:.pf}"`: fixed-point rendering with `p` decimals,
round-half-to-even.  (The float negative-zero artefact `-0.00` is not
modelled; a zero result renders without a sign.) -/
def formatFixed (q : PyFloat) (p : Nat) : String :=
  let n : Int := roundHalfEven (q.mulPow10 p)
  let sign := if n < 0 then "-" else ""
  let ip := natToDigits (n.natAbs / 10 ^ p)
  let fp := padZeros p (natToDigits (n.natAbs % 10 ^ p))
  if p = 0 then sign ++ String.mk ip
  else sign ++ String.mk ip ++ "." ++ String.mk fp

/-- Python `str(float)` for the precision-less branch.  For values that are
exact short decimals this agrees with the float `repr` (shortest
round-tripping decimal); for non-terminating fractions it renders 17
fractional digits, an approximation of the float repr.  No theorem below
depends on its exact digits, only on its determinism. -/
def pyFloatRepr (q : PyFloat) : String :=
  let sign := if q.num * q.den < 0 then "-" else ""
  let a : PyFloat := ⟨q.num.natAbs, q.den.natAbs⟩
  let ip : Int := a.floorI
  let frac : PyFloat := a.sub (PyFloat.ofInt ip)
  let cut : Nat → Option Nat := fun k =>
    if (frac.mulPow10 k).isInt then some k else none
  match (List.range 18).findSome? cut with
  | some k =>
    if k = 0 then sign ++ String.mk (natToDigits ip.natAbs) ++ ".0"
    else sign ++ String.mk (natToDigits ip.natAbs) ++ "." ++
      String.mk (padZeros k (natToDigits (frac.mulPow10 k).floorI.natAbs))
  | none =>
    sign ++ String.mk (natToDigits ip.natAbs) ++ "." ++
      String.mk (padZeros 17 (natToDigits (frac.mulPow10 17).floorI.natAbs))

/-- The sign prefix of `float()`: returns the sign and the remaining text
(an unrecognized head leaves the text untouched). -/
def parseSign (cs : List Char) : Int × List Char :=
  match cs with
  | c :: rest =>
    if c = '+' then (1, rest) else if c = '-' then (-1, rest) else (1, c :: rest)
  | [] => (1, [])

/-- The optional fractional part: on a leading point, the digit run after
it and the rest; otherwise no fraction. -/
def parseFrac (cs1 : List Char) : List Char × List Char :=
  match cs1 with
  | c :: rest =>
    if c = '.' then (rest.takeWhile isDigitChar, rest.dropWhile isDigitChar)
    else ([], c :: rest)
  | [] => ([], [])

/-- The optional exponent suffix applied to the mantissa. -/
def parseExpPart (mant : PyFloat) (cs2 : List Char) : Option PyFloat :=
  match cs2 with
  | [] => some mant
  | e :: rest =>
    if e = 'e' ∨ e = 'E' then
      let es : Bool × List Char :=
        match rest with
        | c :: r =>
          if c = '+' then (true, r) else if c = '-' then (false, r)
          else (true, c :: r)
        | [] => (true, [])
      let edig := es.2.takeWhile isDigitChar
      if edig = [] ∨ es.2.dropWhile isDigitChar ≠ [] then none
      else if es.1 then some (mant.mulPow10 (digitsToNat edig))
      else some ⟨mant.num, mant.den * 10 ^ digitsToNat edig⟩
    else none

/-- Python `float(s)`: optional sign, decimal digits with optional point,
optional exponent.  (`inf`/`nan`/underscore forms are not modelled; the
engine never produces them.)  Leading/trailing whitespace is stripped as
`float` does. -/
def pyFloatParse (s : String) : Option PyFloat :=
  let sc := parseSign (pyStripList s.data)
  let ipart := sc.2.takeWhile isDigitChar
  let fc := parseFrac (sc.2.dropWhile isDigitChar)
  if ipart = [] ∧ fc.1 = [] then none
  else
    parseExpPart
      ⟨sc.1 * ((digitsToNat ipart : Int) * 10 ^ fc.1.length + digitsToNat fc.1),
        10 ^ fc.1.length⟩ fc.2

/-! ## Dates and times (`QDateEdit` / `QTimeEdit` content) -/

/-- A `QDate` as held by a `QDateEdit` (always a valid calendar date). -/
structure PyDate where
  year : Nat
  month : Nat
  day : Nat
  deriving DecidableEq, Repr

/-- A `QTime` restricted to the `HH:mm` precision the widget displays. -/
structure PyTime where
  hour : Nat
  minute : Nat
  deriving DecidableEq, Repr

def isLeapYear (y : Nat) : Bool := (y % 4 = 0 && y % 100 ≠ 0) || y % 400 = 0

def daysInMonth (y m : Nat) : Nat :=
  if m = 2 then (if isLeapYear y then 29 else 28)
  else if m = 4 ∨ m = 6 ∨ m = 9 ∨ m = 11 then 30
  else 31

/-- Validity of a proleptic Gregorian date in `QDate`'s displayable range. -/
def PyDate.valid (d : PyDate) : Bool :=
  1 ≤ d.year && d.year ≤ 9999 && 1 ≤ d.month && d.month ≤ 12 &&
    1 ≤ d.day && d.day ≤ daysInMonth d.year d.month

def PyTime.valid (t : PyTime) : Bool := t.hour < 24 && t.minute < 60

/-- Two-digit zero-padded rendering (`dd`, `MM`, `HH`, `mm`). -/
def pad2 (n : Nat) : List Char := padZeros 2 (natToDigits n)

/-- Four-digit zero-padded rendering (`yyyy`). -/
def pad4 (n : Nat) : List Char := padZeros 4 (natToDigits n)

/-- `QDate.toString("dd.MM.yyyy")`. -/
def formatDate (d : PyDate) : String :=
  String.mk (pad2 d.day ++ '.' :: pad2 d.month ++ '.' :: pad4 d.year)

/-- `QTime.toString("HH:mm")`. -/
def formatTime (t : PyTime) : String :=
  String.mk (pad2 t.hour ++ ':' :: pad2 t.minute)

/-- `QDate.fromString(v, "dd.MM.yyyy")`: exactly `dd.MM.yyyy` with digit
fields, and the result must be a valid date. -/
def parseDate (s : String) : Option PyDate :=
  match s.data with
  | [d1, d2, p1, m1, m2, p2, y1, y2, y3, y4] =>
    if p1 = '.' ∧ p2 = '.' ∧
        [d1, d2, m1, m2, y1, y2, y3, y4].all isDigitChar then
      let d : PyDate :=
        ⟨digitsToNat [y1, y2, y3, y4], digitsToNat [m1, m2], digitsToNat [d1, d2]⟩
      if d.valid then some d else none
    else none
  | _ => none

/-- `QTime.fromString(v, "HH:mm")`. -/
def parseTime (s : String) : Option PyTime :=
  match s.data with
  | [h1, h2, c, m1, m2] =>
    if c = ':' ∧ [h1, h2, m1, m2].all isDigitChar then
      let t : PyTime := ⟨digitsToNat [h1, h2], digitsToNat [m1, m2]⟩
      if t.valid then some t else none
    else none
  | _ => none

/-! ## Schema model

`FieldMeta` mirrors the frozen dataclass of the source file; the `*Spec`
structures stand for the rows `_load_structure` reads from the database
(`tabs`, `groups`, `fields`, `dictionary_values`), already in the order of
the queries' `ORDER BY` clauses. -/

/-- The `FieldMeta` dataclass of `protocol_builder_qt.py`. -/
structure FieldMeta where
  id : Nat
  group_id : Nat
  tab_id : Nat
  name : String
  field_type : String
  column_num : Nat
  display_order : Nat
  precision : Option Nat
  ref_male_min : Option PyFloat
  ref_male_max : Option PyFloat
  ref_female_min : Option PyFloat
  ref_female_max : Option PyFloat
  formula : Option String
  required : Bool
  height : Nat
  width : Nat
  is_hidden : Bool
  trigger_field_id : Option Nat
  trigger_value : Option String
  deriving DecidableEq, Repr

/-- One row of the `fields` query plus its `dictionary_values` rows
(`options`, in `display_order`). -/
structure FieldSpec where
  id : Nat
  name : String
  field_type : String
  column_num : Nat
  display_order : Nat
  precision : Option Nat
  ref_male_min : Option PyFloat
  ref_male_max : Option PyFloat
  ref_female_min : Option PyFloat
  ref_female_max : Option PyFloat
  formula : Option String
  required : Bool
  height : Nat
  width : Nat
  is_hidden : Bool
  trigger_field_id : Option Nat
  trigger_value : Option String
  options : List String
  deriving DecidableEq, Repr

structure GroupSpec where
  id : Nat
  name : String
  fields : List FieldSpec
  deriving DecidableEq, Repr

structure TabSpec where
  id : Nat
  name : String
  groups : List GroupSpec
  deriving DecidableEq, Repr

/-- A study type's structure: the ordered tab list `_load_structure` reads. -/
def Structure := List TabSpec

/-! ## Widgets and bindings -/

/-- The delimiter `TEMPLATE_MULTI_DELIM`. -/
def templateMultiDelim : String := " | "

/-- The widget state the engine reads and writes.

* `lineEdit` — `QLineEdit` (types `число`, `формула`, `строка` and any
  unrecognized type).
* `plainText` — `QPlainTextEdit` (type `текст`).
* `comboBox` — editable `QComboBox` with an item list (type `словарь`).
* `comboTemplate` — the `шаблон` combo: item list, the combo's edit text,
  and the attached `template_text_widget` plain-text area that the codec
  actually reads and writes.
* `comboMulti` — a combo with the `template_multi` property: checkable
  items (text, checked) plus the edit text.  `_load_structure` never
  creates one, but the codec and `_update_hidden` handle it, so the model
  includes it.
* `dateEdit` / `timeEdit` — `QDateEdit` / `QTimeEdit`. -/
inductive Widget where
  | lineEdit (text : String)
  | plainText (text : String)
  | comboBox (items : List String) (text : String)
  | comboTemplate (items : List String) (comboText : String) (areaText : String)
  | comboMulti (items : List (String × Bool)) (editText : String)
  | dateEdit (date : PyDate)
  | timeEdit (time : PyTime)
  deriving DecidableEq, Repr

namespace Widget

/-- `FieldBinding.get_str`. -/
def getStr : Widget → String
  | lineEdit t => t
  | plainText t => t
  | comboTemplate _ _ area => area
  | comboMulti items _ =>
    pyJoin templateMultiDelim ((items.filter (·.2)).map (·.1))
  | comboBox _ t => t
  | dateEdit d => formatDate d
  | timeEdit t => formatTime t

/-- `FieldBinding.set_str`.  For a `comboBox`, `findText` either selects the
matching item (making the current text that item, i.e. `value`) or falls
back to `setCurrentText(value)`; both leave the current text equal to
`value`, so the model sets the text directly.  Invalid dates/times are not
applied (the widget keeps its prior value). -/
def setStr (w : Widget) (value : String) : Widget :=
  match w with
  | lineEdit _ => lineEdit value
  | plainText _ => plainText value
  | comboTemplate items ct _ => comboTemplate items ct value
  | comboMulti items _ =>
    let parts : List String :=
      if value ≠ "" then
        if pyContainsSub value templateMultiDelim then
          ((pySplit value templateMultiDelim).map pyStrip).filter (¬ ·.isEmpty)
        else [pyStrip value]
      else []
    comboMulti (items.map fun it => (it.1, parts.contains it.1))
      (pyJoin " " parts)
  | comboBox items _ => comboBox items value
  | dateEdit d =>
    match parseDate value with
    | some d2 => dateEdit d2
    | none => dateEdit d
  | timeEdit t =>
    match parseTime value with
    | some t2 => timeEdit t2
    | none => timeEdit t

/-- `isinstance(w, QComboBox)`. -/
def isCombo : Widget → Bool
  | comboBox _ _ | comboTemplate _ _ _ | comboMulti _ _ => true
  | _ => false

/-- The `template_multi` property. -/
def isMulti : Widget → Bool
  | comboMulti _ _ => true
  | _ => false

/-- `isinstance(w, QLineEdit)`. -/
def isLineEdit : Widget → Bool
  | lineEdit _ => true
  | _ => false

/-- `_first_choice_text()` of `_update_hidden`: for a multi combo the first
model item's stripped text, for any other combo the stripped `itemText(0)`;
`None` when the combo has no items or the widget is not a combo. -/
def firstChoiceText : Widget → Option String
  | comboMulti items _ =>
    match items with
    | [] => none
    | it :: _ => some (pyStrip it.1)
  | comboBox items _ | comboTemplate items _ _ =>
    match items with
    | [] => none
    | t :: _ => some (pyStrip t)
  | _ => none

end Widget

/-- The runtime `FieldBinding`: its meta, widget state, the visibility
flags of the field's container and label, and whether the out-of-range
background is currently applied (`_set_widget_bg` with the pink color). -/
structure Binding where
  meta : FieldMeta
  widget : Widget
  containerVisible : Bool
  labelVisible : Bool
  flagged : Bool
  deriving DecidableEq, Repr

def Binding.getStr (b : Binding) : String := b.widget.getStr

/-- The engine state: `patient_gender`, the `_field_id_by_path` index, the
`hidden_by_trigger` map and the ordered `fields` dict. -/
structure EngState where
  gender : String
  pathMap : List (String × Nat)
  hiddenByTrigger : List (Nat × List Nat)
  fields : List Binding
  deriving DecidableEq, Repr

namespace EngState

/-- `fid in self.fields` / `self.fields[fid]` (field ids are unique in any
well-formed structure; on duplicate ids the model reads the first, as the
Python dict keeps one entry per key). -/
def findBinding (s : EngState) (fid : Nat) : Option Binding :=
  s.fields.find? (fun b => b.meta.id = fid)

/-- Update the binding with id `fid` (the dict holds one binding per id). -/
def mapBinding (s : EngState) (fid : Nat) (f : Binding → Binding) : EngState :=
  { s with fields := s.fields.map fun b => if b.meta.id = fid then f b else b }

end EngState

/-- Python-dict lookup on an association list whose later insertions
overwrite earlier ones (`self._field_id_by_path[key] = field_id`): the last
binding for the key wins. -/
def dictGetLast (l : List (String × Nat)) (k : String) : Option Nat :=
  (l.reverse.find? (fun p => p.1 = k)).map (·.2)

/-- Python-dict insert preserving first-insertion order
(`values[key] = v`). -/
def dictInsert (l : List (String × String)) (k v : String) : List (String × String) :=
  if l.any (fun p => p.1 = k) then
    l.map fun p => if p.1 = k then (k, v) else p
  else l ++ [(k, v)]

/-- `self.hidden_by_trigger.setdefault(t, []).append(fid)`. -/
def hbtAppend (l : List (Nat × List Nat)) (t fid : Nat) : List (Nat × List Nat) :=
  if l.any (fun p => p.1 = t) then
    l.map fun p => if p.1 = t then (p.1, p.2 ++ [fid]) else p
  else l ++ [(t, [fid])]

def hbtGet (l : List (Nat × List Nat)) (t : Nat) : Option (List Nat) :=
  (l.find? (fun p => p.1 = t)).map (·.2)

/-! ## Building the state (`_load_structure`) -/

/-- The widget `_create_field_widget` creates for a field type, with the
field's dictionary values.  Defaults: `QDateEdit` starts at 2000-01-01 and
`QTimeEdit` at 00:00; combos start with no selection and empty text. -/
def widgetFor (fieldType : String) (options : List String) : Widget :=
  if fieldType = "текст" then .plainText ""
  else if fieldType = "словарь" then .comboBox options ""
  else if fieldType = "шаблон" then .comboTemplate options "" ""
  else if fieldType = "дата" then .dateEdit ⟨2000, 1, 1⟩
  else if fieldType = "время" then .timeEdit ⟨0, 0⟩
  else .lineEdit ""

/-- The `FieldMeta` built from a field row inside a given tab and group. -/
def metaOf (tabId groupId : Nat) (f : FieldSpec) : FieldMeta :=
  { id := f.id, group_id := groupId, tab_id := tabId, name := f.name
    field_type := f.field_type, column_num := f.column_num
    display_order := f.display_order, precision := f.precision
    ref_male_min := f.ref_male_min, ref_male_max := f.ref_male_max
    ref_female_min := f.ref_female_min, ref_female_max := f.ref_female_max
    formula := f.formula, required := f.required, height := f.height
    width := f.width, is_hidden := f.is_hidden
    trigger_field_id := f.trigger_field_id, trigger_value := f.trigger_value }

/-- The initial binding for one field: label visible; the container hidden
exactly when the field is hidden-by-default *and* carries a trigger id
(`if meta.is_hidden and meta.trigger_field_id: ...setVisible(False)`). -/
def initBinding (tabId groupId : Nat) (f : FieldSpec) : Binding :=
  let m := metaOf tabId groupId f
  { meta := m
    widget := widgetFor f.field_type f.options
    containerVisible := ¬ (m.is_hidden ∧ m.trigger_field_id.isSome)
    labelVisible := true
    flagged := false }

/-- `_load_structure`: walk tabs → groups → fields building the bindings in
insertion order, the `"Вкладка.Группа.Поле"` path index (later duplicates
overwrite), and the `hidden_by_trigger` map. -/
def buildState (gender : String) (struct : Structure) : EngState :=
  let step := fun (s : EngState) (tab : TabSpec) =>
    tab.groups.foldl (fun (s : EngState) (grp : GroupSpec) =>
      grp.fields.foldl (fun (s : EngState) (f : FieldSpec) =>
        let key := pyStrip tab.name ++ "." ++ pyStrip grp.name ++ "." ++ pyStrip f.name
        let b := initBinding tab.id grp.id f
        { s with
          pathMap := s.pathMap ++ [(key, f.id)]
          hiddenByTrigger :=
            match f.trigger_field_id with
            | some t => if f.is_hidden then hbtAppend s.hiddenByTrigger t f.id
                        else s.hiddenByTrigger
            | none => s.hiddenByTrigger
          fields := s.fields ++ [b] }) s) s
  struct.foldl step { gender := gender, pathMap := [], hiddenByTrigger := [], fields := [] }

/-! ## Formula evaluation (`_evaluate_formula`)

The reference pattern is `([\w\s]+)\.([\w\s]+)\.([\w\s]+)`.  Because `.` is
not a `[\w\s]` character, matching is deterministic: each group is the
maximal run of word/space characters, followed by a literal dot (no
backtracking can succeed where the greedy match fails).  `re.findall`
scans left to right, resuming after each match, advancing one character
after a failed attempt. -/

/-- Try to match the triple pattern at the start of `cs`; return the three
group texts and the length of the whole match. -/
def matchTriple (cs : List Char) : Option ((String × String × String) × Nat) :=
  let r1 := cs.takeWhile pyIsWordSpace
  if r1 = [] then none
  else
    match cs.drop r1.length with
    | '.' :: rest1 =>
      let r2 := rest1.takeWhile pyIsWordSpace
      if r2 = [] then none
      else
        match rest1.drop r2.length with
        | '.' :: rest2 =>
          let r3 := rest2.takeWhile pyIsWordSpace
          if r3 = [] then none
          else some ((String.mk r1, String.mk r2, String.mk r3),
            r1.length + 1 + r2.length + 1 + r3.length)
        | _ => none
    | _ => none

def findTriplesAux (fuel : Nat) (cs : List Char) : List (String × String × String) :=
  match fuel, cs with
  | 0, _ => []
  | _, [] => []
  | fuel + 1, c :: rest =>
    match matchTriple (c :: rest) with
    | some (t, len) => t :: findTriplesAux fuel ((c :: rest).drop len)
    | none => findTriplesAux fuel rest

/-- `re.findall(r"([\w\s]+)\.([\w\s]+)\.([\w\s]+)", formula)`. -/
def findTriples (s : String) : List (String × String × String) :=
  findTriplesAux s.data.length s.data

/-- The characters the source's operator-spacing `re.sub` pattern can
consume: the pattern `r"\\s*([\\+\\-\\*/])\\s*"` (note the doubled
backslashes inside a raw string) matches a literal backslash, a run of
letter `s`, one of `\\ + - * /`, a literal backslash, and a run of `s`. -/
def subOpsClass (c : Char) : Bool :=
  c = '\\' || c = '+' || c = '-' || c = '*' || c = '/'

/-- Match the operator-spacing pattern at the start of `cs`, returning the
match length. -/
def matchSubOps (cs : List Char) : Option Nat :=
  match cs with
  | [] => none
  | c0 :: rest =>
    if c0 = '\\' then
      let k := (rest.takeWhile (· = 's')).length
      match rest.drop k with
      | c :: rest2 =>
        if subOpsClass c then
          match rest2 with
          | c1 :: rest3 =>
            if c1 = '\\' then
              let m := (rest3.takeWhile (· = 's')).length
              some (1 + k + 1 + 1 + m)
            else none
          | [] => none
        else none
      | [] => none
    else none

def subOpsAux (fuel : Nat) (cs : List Char) : List Char :=
  match fuel, cs with
  | 0, cs => cs
  | _, [] => []
  | fuel + 1, c :: rest =>
    match matchSubOps (c :: rest) with
    | some len => ' ' :: '\\' :: '1' :: ' ' :: subOpsAux fuel ((c :: rest).drop len)
    | none => c :: subOpsAux fuel rest

/-- `re.sub(r"\\s*([\\+\\-\\*/])\\s*", r" \\1 ", expression)`.  The raw
replacement string `" \\1 "` escapes to a literal backslash followed by the
digit 1, so the captured operator is dropped.  On any text without a
literal backslash this is the identity. -/
def subOps (s : String) : String := String.mk (subOpsAux s.data.length s.data)

/-- The binding one reference triple consults: full-path lookup first (when
the id is present in `self.fields`), bare-field-name fallback otherwise. -/
def refBinding (s : EngState) (t : String × String × String) : Option Binding :=
  let direct : Option Binding :=
    match dictGetLast s.pathMap
        (pyStrip t.1 ++ "." ++ pyStrip t.2.1 ++ "." ++ pyStrip t.2.2) with
    | some fid => s.findBinding fid
    | none => none
  match direct with
  | some b => some b
  | none => s.fields.find? (fun b2 => pyStrip b2.meta.name = pyStrip t.2.2)

/-- The resolution of one reference triple, the loop body of
`_evaluate_formula`: the consulted binding's value; a blank or missing
value is `none`, a found one is comma-normalized. -/
def resolveRef (s : EngState) (t : String × String × String) : Option String :=
  match refBinding s t with
  | none => none
  | some b =>
    if (pyStrip b.getStr).isEmpty then none else some (pyReplace b.getStr "," ".")

/-- The value-resolution loop of `_evaluate_formula`: for each matched
reference, resolve through `_field_id_by_path` (falling back to a scan of
`field_meta` by bare stripped field name — every id in `field_meta` is also
in `fields`, they are filled together), read the current value, fail if it
is blank or the reference is unresolvable, and record
`raw.replace(",", ".")` under the normalized key in insertion order. -/
def buildValues (s : EngState) :
    List (String × String × String) → List (String × String) →
    Option (List (String × String))
  | [], acc => some acc
  | (a, b, c) :: rest, acc =>
    let key := pyStrip a ++ "." ++ pyStrip b ++ "." ++ pyStrip c
    match resolveRef s (a, b, c) with
    | none => none
    | some v => buildValues s rest (dictInsert acc key v)

/-- `allowed_chars = set("0123456789.+-*/() ")`. -/
def allowedChars : List Char := "0123456789.+-*/() ".data

/-! ### Arithmetic evaluation of the substituted expression

After the character whitelist passes, the expression contains only digits,
`.`, `+ - * / ( )` and spaces, so `eval` computes plain Python arithmetic:
`+ - * /` with usual precedence, unary signs, parenthesization, and — the
two-character sequences the whitelist also lets through — `**` and `//`.
Syntax errors, `ZeroDivisionError`s and other exceptions are `none`
(caught by the enclosing `try`).  Non-integer exponents of `**` yield
irrational results outside the fraction model and are mapped to `none`;
no formula in scope uses `**` at all. -/

inductive Tok where
  | num (v : PyFloat)
  | plus | minus | star | slash | dstar | dslash | lp | rp
  deriving DecidableEq, Repr

def lexNumber (cs : List Char) : Option (PyFloat × List Char) :=
  let ip := cs.takeWhile isDigitChar
  let cs1 := cs.drop ip.length
  let (fp, rest) :=
    match cs1 with
    | '.' :: r => (r.takeWhile isDigitChar, r.dropWhile isDigitChar)
    | _ => (([] : List Char), cs1)
  if ip = [] ∧ fp = [] then none
  else some (⟨(digitsToNat ip : Int) * 10 ^ fp.length + digitsToNat fp,
    10 ^ fp.length⟩, rest)

def tokenizeAux (fuel : Nat) (cs : List Char) : Option (List Tok) :=
  match fuel, cs with
  | 0, [] => some []
  | 0, _ => none
  | _, [] => some []
  | fuel + 1, c :: rest =>
    if c = ' ' then tokenizeAux fuel rest
    else if c = '*' then
      match rest with
      | '*' :: r => (tokenizeAux fuel r).map (Tok.dstar :: ·)
      | _ => (tokenizeAux fuel rest).map (Tok.star :: ·)
    else if c = '/' then
      match rest with
      | '/' :: r => (tokenizeAux fuel r).map (Tok.dslash :: ·)
      | _ => (tokenizeAux fuel rest).map (Tok.slash :: ·)
    else if c = '+' then (tokenizeAux fuel rest).map (Tok.plus :: ·)
    else if c = '-' then (tokenizeAux fuel rest).map (Tok.minus :: ·)
    else if c = '(' then (tokenizeAux fuel rest).map (Tok.lp :: ·)
    else if c = ')' then (tokenizeAux fuel rest).map (Tok.rp :: ·)
    else
      match lexNumber (c :: rest) with
      | some (v, r) => ((tokenizeAux fuel r).map (Tok.num v :: ·))
      | none => none

def tokenize (s : String) : Option (List Tok) := tokenizeAux s.data.length s.data

/-- `a // b` (float floor division). -/
def fdivQ (a b : PyFloat) : Option PyFloat :=
  if b.num = 0 then none
  else
    let n := a.num * b.den
    let d := a.den * b.num
    some (PyFloat.ofInt (if d < 0 then (-n).fdiv (-d) else n.fdiv d))

/-- `a ** b`; only defined (as a fraction) for integer exponents. -/
def powQ (a b : PyFloat) : Option PyFloat :=
  if b.isInt then
    let k : Int := b.num.fdiv b.den
    if 0 ≤ k then some ⟨a.num ^ k.natAbs, a.den ^ k.natAbs⟩
    else if a.num = 0 then none
    else if a.num < 0 ∧ k.natAbs % 2 = 1 then
      some ⟨-(a.den ^ k.natAbs), -(a.num ^ k.natAbs)⟩
    else some ⟨a.den ^ k.natAbs, a.num ^ k.natAbs⟩
  else none

mutual
/-- `a_expr`: sums of products. -/
def parseA (fuel : Nat) (ts : List Tok) : Option (PyFloat × List Tok) :=
  match fuel with
  | 0 => none
  | fuel + 1 =>
    match parseM fuel ts with
    | some (v, r) => parseARest fuel v r
    | none => none

def parseARest (fuel : Nat) (acc : PyFloat) (ts : List Tok) :
    Option (PyFloat × List Tok) :=
  match fuel with
  | 0 => none
  | fuel + 1 =>
    match ts with
    | Tok.plus :: r =>
      match parseM fuel r with
      | some (v, r2) => parseARest fuel (acc.add v) r2
      | none => none
    | Tok.minus :: r =>
      match parseM fuel r with
      | some (v, r2) => parseARest fuel (acc.sub v) r2
      | none => none
    | _ => some (acc, ts)

/-- `m_expr`: products of unary expressions. -/
def parseM (fuel : Nat) (ts : List Tok) : Option (PyFloat × List Tok) :=
  match fuel with
  | 0 => none
  | fuel + 1 =>
    match parseU fuel ts with
    | some (v, r) => parseMRest fuel v r
    | none => none

def parseMRest (fuel : Nat) (acc : PyFloat) (ts : List Tok) :
    Option (PyFloat × List Tok) :=
  match fuel with
  | 0 => none
  | fuel + 1 =>
    match ts with
    | Tok.star :: r =>
      match parseU fuel r with
      | some (v, r2) => parseMRest fuel (acc.mul v) r2
      | none => none
    | Tok.slash :: r =>
      match parseU fuel r with
      | some (v, r2) =>
        match acc.divQ v with
        | some w => parseMRest fuel w r2
        | none => none
      | none => none
    | Tok.dslash :: r =>
      match parseU fuel r with
      | some (v, r2) =>
        match fdivQ acc v with
        | some w => parseMRest fuel w r2
        | none => none
      | none => none
    | _ => some (acc, ts)

/-- `u_expr`: unary signs. -/
def parseU (fuel : Nat) (ts : List Tok) : Option (PyFloat × List Tok) :=
  match fuel with
  | 0 => none
  | fuel + 1 =>
    match ts with
    | Tok.plus :: r => parseU fuel r
    | Tok.minus :: r => (parseU fuel r).map (fun p => (p.1.neg, p.2))
    | _ => parseP fuel ts

/-- `power`: an atom optionally raised (right-associatively) to a
`u_expr`. -/
def parseP (fuel : Nat) (ts : List Tok) : Option (PyFloat × List Tok) :=
  match fuel with
  | 0 => none
  | fuel + 1 =>
    match parseAtom fuel ts with
    | some (v, Tok.dstar :: r) =>
      match parseU fuel r with
      | some (e, r2) =>
        match powQ v e with
        | some w => some (w, r2)
        | none => none
      | none => none
    | some (v, r) => some (v, r)
    | none => none

def parseAtom (fuel : Nat) (ts : List Tok) : Option (PyFloat × List Tok) :=
  match fuel with
  | 0 => none
  | fuel + 1 =>
    match ts with
    | Tok.num v :: r => some (v, r)
    | Tok.lp :: r =>
      match parseA fuel r with
      | some (v, Tok.rp :: r2) => some (v, r2)
      | _ => none
    | _ => none
end

/-- `float(eval(expression, {"__builtins__": {}}, allowed_names))` on a
whitelisted expression. -/
def pyEvalExpr (s : String) : Option PyFloat :=
  match tokenize s with
  | none => none
  | some ts =>
    match parseA (8 * (ts.length + 1)) ts with
    | some (v, []) => some v
    | _ => none

/-- `_evaluate_formula`: find the references, resolve their values (any
blank or unresolvable reference fails the whole formula), substitute them
into the text, apply the operator-spacing `re.sub`, turn decimal commas
into points, reject any character outside the whitelist, and evaluate
arithmetically.  `none` is both the explicit `return None` and any caught
exception. -/
def evaluateFormula (s : EngState) (formula : String) : Option PyFloat :=
  match buildValues s (findTriples formula) [] with
  | none => none
  | some values =>
    let e1 := values.foldl (fun e kv => pyReplace e kv.1 kv.2) formula
    let e2 := pyReplace (subOps e1) "," "."
    if e2.data.all (fun c => allowedChars.contains c) then pyEvalExpr e2
    else none

/-! ## Range checking (`_check_reference`) and recomputation -/

/-- `_current_ref_range`. -/
def currentRefRange (gender : String) (m : FieldMeta) :
    Option PyFloat × Option PyFloat :=
  if gender = "жен" then (m.ref_female_min, m.ref_female_max)
  else (m.ref_male_min, m.ref_male_max)

/-- The value `_check_reference` compares against the range: the parsed
float, rounded to the field's precision when one is configured
(`val = round(val, precision)`). -/
def checkedVal (m : FieldMeta) (val0 : PyFloat) : PyFloat :=
  match m.precision with
  | some p => roundPrec val0 p
  | none => val0

/-- `_check_reference(fid)`.  The `_loading` re-entrancy guard around the
rounding `setText` only suppresses reactive signal handlers; the net state
effect is the straight-line body modelled here. -/
def checkReference (s : EngState) (fid : Nat) : EngState :=
  match s.findBinding fid with
  | none => s
  | some b =>
    if b.meta.field_type ≠ "число" ∧ b.meta.field_type ≠ "формула" then s
    else
      let txt := pyStrip b.getStr
      if txt = "" then s.mapBinding fid (fun b2 => { b2 with flagged := false })
      else
        match pyFloatParse (pyReplace txt "," ".") with
        | none => s
        | some val0 =>
          let val := match b.meta.precision with
            | some p => roundPrec val0 p
            | none => val0
          let s1 := match b.meta.precision with
            | some p =>
              if b.widget.isLineEdit then
                s.mapBinding fid (fun b2 =>
                  { b2 with widget :=
                      b2.widget.setStr (pyReplace (formatFixed (roundPrec val0 p) p) "." ",") })
              else s
            | none => s
          match currentRefRange s.gender b.meta with
          | (some lo, some hi) =>
            s1.mapBinding fid (fun b2 =>
              { b2 with flagged := ¬ (lo.ble val ∧ val.ble hi) })
          | _ => s1

/-- One step of `_recalculate_formulas` for the binding at position `i`:
non-formula fields and fields with no/empty formula text are skipped; a
`None` evaluation clears the value and the background; otherwise the result
is rounded/formatted, comma-ized, written, and `_check_reference` runs on
the field. -/
def recalcStep (s : EngState) (i : Nat) : EngState :=
  match s.fields.get? i with
  | none => s
  | some b =>
    if b.meta.field_type ≠ "формула" then s
    else
      match b.meta.formula with
      | none => s
      | some f =>
        if f = "" then s
        else
          match evaluateFormula s f with
          | none =>
            s.mapBinding b.meta.id (fun b2 =>
              { b2 with widget := b2.widget.setStr "", flagged := false })
          | some r =>
            let txt := match b.meta.precision with
              | some p => pyReplace (formatFixed (roundPrec r p) p) "." ","
              | none => pyReplace (pyFloatRepr r) "." ","
            let s2 := s.mapBinding b.meta.id (fun b2 =>
              { b2 with widget := b2.widget.setStr txt })
            checkReference s2 b.meta.id

def recalcAux (fuel i : Nat) (s : EngState) : EngState :=
  match fuel with
  | 0 => s
  | fuel + 1 => recalcAux fuel (i + 1) (recalcStep s i)

/-- `_recalculate_formulas` (invoked with `_loading` false). -/
def recalcFormulas (s : EngState) : EngState := recalcAux s.fields.length 0 s

/-! ## Hidden-field triggers (`_update_hidden`) -/

/-- The per-target `show` computation of `_update_hidden`, as a function of
the trigger binding and the hidden field's meta. -/
def shownFor (tb : Binding) (m : FieldMeta) : Bool :=
  let tv := pyStrip tb.getStr
  match tb.widget.firstChoiceText with
  | some ft =>
    if tb.widget.isCombo then
      if tv = "" then false
      else if tb.widget.isMulti then
        ¬ (((pySplit tv templateMultiDelim).map pyStrip).filter
            (¬ ·.isEmpty) = [ft])
      else tv ≠ ft
    else
      match m.trigger_value with
      | some w => w ≠ "" && tv = pyStrip w
      | none => false
  | none =>
    match m.trigger_value with
    | some w => w ≠ "" && tv = pyStrip w
    | none => false

/-- `_update_hidden(trigger_field_id)`.  Callers only invoke it for trigger
ids present in `self.fields`; a missing id is modelled as a no-op (the
Python would raise `KeyError`, but no call site can reach that). -/
def updateHidden (s : EngState) (tid : Nat) : EngState :=
  match hbtGet s.hiddenByTrigger tid with
  | none => s
  | some targets =>
    match s.findBinding tid with
    | none => s
    | some tb =>
      { s with
        fields := s.fields.map fun b =>
          if targets.contains b.meta.id then
            { b with containerVisible := shownFor tb b.meta
                     labelVisible := shownFor tb b.meta }
          else b }

/-- The trigger-sync loop (`for trigger_id in ...: if trigger_id in
self.fields: self._update_hidden(trigger_id)`). -/
def trigSyncAll (s : EngState) : EngState :=
  s.hiddenByTrigger.foldl
    (fun st p => if (st.findBinding p.1).isSome then updateHidden st p.1 else st) s

/-! ## Load / collect / persist (`_load_existing_protocol`,
`collect_values`, `load_protocol_values`, `save_protocol`) -/

/-- The value-application loop of `_load_existing_protocol`
(`if fid in self.fields and v: set_str(v)`); reactive recomputation is
suppressed by `_loading` while it runs. -/
def applyLoaded (s : EngState) (vals : List (Nat × String)) : EngState :=
  vals.foldl
    (fun st p =>
      if (st.findBinding p.1).isSome ∧ p.2 ≠ "" then
        st.mapBinding p.1 (fun b => { b with widget := b.widget.setStr p.2 })
      else st) s

/-- `_load_existing_protocol` after the values are fetched: apply them,
then sync every hidden trigger. -/
def loadExisting (s : EngState) (vals : List (Nat × String)) : EngState :=
  trigSyncAll (applyLoaded s vals)

/-- `collect_values`: every binding except those both hidden-by-default and
currently invisible, mapped to its current string (blank or not). -/
def collectValues (s : EngState) : List (Nat × String) :=
  s.fields.filterMap fun b =>
    if b.meta.is_hidden ∧ ¬ b.containerVisible then none
    else some (b.meta.id, b.getStr)

/-- The value loop of `save_protocol`: `None` values are impossible for
collected strings; values that are blank after `strip()` are skipped, the
rest are upserted.  The result is the list of `(field_id, value)` rows
written. -/
def savedPairs (values : List (Nat × String)) : List (Nat × String) :=
  values.filter fun p => ¬ (pyStrip p.2).isEmpty

/-- `load_protocol_values`: the stored rows for a protocol (values are
non-`NULL` by construction of `save_protocol`). -/
def loadProtocolValues (rows : List (Nat × String)) : List (Nat × String) := rows

/-- `build()` for an existing record: `_load_structure`,
`_load_existing_protocol`, `_recalculate_formulas`. -/
def reopen (gender : String) (struct : Structure) (stored : List (Nat × String)) :
    EngState :=
  recalcFormulas (loadExisting (buildState gender struct) stored)

/-- `clear_current_tab` with the current tab resolved to `tabId`: blank
every field of the tab (under `_loading`), re-run the triggers whose
trigger field belongs to the tab, then recompute formulas. -/
def clearTab (s : EngState) (tabId : Nat) : EngState :=
  let s1 : EngState :=
    { s with fields := s.fields.map fun b =>
        if b.meta.tab_id = tabId then { b with widget := b.widget.setStr "" } else b }
  let s2 : EngState :=
    s.hiddenByTrigger.foldl
      (fun st p =>
        match st.findBinding p.1 with
        | some tb => if tb.meta.tab_id = tabId then updateHidden st p.1 else st
        | none => st) s1
  recalcFormulas s2

/-- One full dependency-evaluator pass: update every trigger, then
recompute all formulas (each recomputation ending in its range check). -/
def evalPass (s : EngState) : EngState := recalcFormulas (trigSyncAll s)

/-! ## Analysis projections and well-formedness predicates -/

/-- The meta and visibility projection of a binding. -/
def visProj (b : Binding) : FieldMeta × Bool × Bool :=
  (b.meta, b.containerVisible, b.labelVisible)

/-- The meta and widget projection of a binding. -/
def valProj (b : Binding) : FieldMeta × Widget := (b.meta, b.widget)

/-- The static parts of the state (gender, path index, trigger map). -/
def statics (s : EngState) : String × List (String × Nat) × List (Nat × List Nat) :=
  (s.gender, s.pathMap, s.hiddenByTrigger)

/-- Field ids are pairwise distinct. -/
def NodupIds (s : EngState) : Prop := (s.fields.map (fun b => b.meta.id)).Nodup

/-- What formula evaluation can read of one binding: its meta and its
value, the latter masked on formula fields. -/
def eproj (b : Binding) : FieldMeta × Option String :=
  (b.meta, if b.meta.field_type = "формула" then none else some b.getStr)

/-- Everything formula evaluation can read: the path index and, per
binding, its meta together with its value masked on formula fields. -/
def evalView (s : EngState) : List (String × Nat) × List (FieldMeta × Option String) :=
  (s.pathMap, s.fields.map eproj)

/-- Every reference of every formula consults a non-formula binding. -/
def RefsNonFormula (s : EngState) : Prop :=
  ∀ b ∈ s.fields, b.meta.field_type = "формула" →
    ∀ t ∈ findTriples (b.meta.formula.getD ""),
      ((refBinding s t).map (fun rb => rb.meta.field_type)).getD "" ≠ "формула"

/-- No hidden-field trigger is itself a formula field. -/
def TriggersNonFormula (s : EngState) : Prop :=
  ∀ p ∈ s.hiddenByTrigger,
    ((s.findBinding p.1).map (fun tb => tb.meta.field_type)).getD "" ≠ "формула"

/-- The trigger map is a well-formed index: distinct trigger keys with
pairwise-disjoint target lists (as `_load_structure` builds it). -/
def TriggerWellFormed (s : EngState) : Prop :=
  (s.hiddenByTrigger.map (fun p => p.1)).Nodup ∧
  List.Pairwise (fun p q => ∀ fid ∈ p.2, fid ∉ q.2) s.hiddenByTrigger

/-- Trigger `tid` is settled: each of its targets already shows the
visibility `_update_hidden` would assign. -/
def VisSettled (s : EngState) (tid : Nat) : Prop :=
  ∀ targets, hbtGet s.hiddenByTrigger tid = some targets →
  ∀ tb, s.findBinding tid = some tb →
  ∀ x ∈ s.fields, x.meta.id ∈ targets →
    x.containerVisible = shownFor tb x.meta ∧ x.labelVisible = shownFor tb x.meta

/-- The range-check `_check_reference` performs, as a transformation of the
checked binding alone (its state effect under distinct ids). -/
def chk (g : String) (b : Binding) : Binding :=
  if b.meta.field_type ≠ "число" ∧ b.meta.field_type ≠ "формула" then b
  else
    let txt := pyStrip b.getStr
    if txt = "" then { b with flagged := false }
    else
      match pyFloatParse (pyReplace txt "," ".") with
      | none => b
      | some val0 =>
        let val := match b.meta.precision with
          | some p => roundPrec val0 p
          | none => val0
        let b1 := match b.meta.precision with
          | some p =>
            if b.widget.isLineEdit then
              { b with widget :=
                  b.widget.setStr (pyReplace (formatFixed (roundPrec val0 p) p) "." ",") }
            else b
          | none => b
        match currentRefRange g b.meta with
        | (some lo, some hi) => { b1 with flagged := ¬ (lo.ble val ∧ val.ble hi) }
        | _ => b1

/-- The net effect of one `_recalculate_formulas` iteration on the formula
binding itself, given the evaluation result: clear on failure, else write
the rendered value and run the range check. -/
def procFormula (g : String) (r : Option PyFloat) (b : Binding) : Binding :=
  match r with
  | none => { b with widget := b.widget.setStr "", flagged := false }
  | some rv =>
    let txt := match b.meta.precision with
      | some p => pyReplace (formatFixed (roundPrec rv p) p) "." ","
      | none => pyReplace (pyFloatRepr rv) "." ","
    chk g { b with widget := b.widget.setStr txt }

/-! ## Concrete schemas used by the examples and witnesses -/

/-- A plain two-decimal `число` field, the base the other concrete fields
modify. -/
def baseField (i : Nat) (nm : String) : FieldSpec :=
  { id := i, name := nm, field_type := "число", column_num := 1
    display_order := i, precision := some 2, ref_male_min := none
    ref_male_max := none, ref_female_min := none, ref_female_max := none
    formula := none, required := false, height := 1, width := 20
    is_hidden := false, trigger_field_id := none, trigger_value := none
    options := [] }

/-- The BMI formula field of the spec's worked example. -/
def bmiField : FieldSpec :=
  { baseField 3 "BMI" with
    field_type := "формула"
    formula := some "Tab1.G1.Weight / (Tab1.G1.Height * Tab1.G1.Height)" }

/-- `Tab1.G1` with `Weight`, `Height` and the BMI formula. -/
def bmiStruct : Structure :=
  [⟨10, "Tab1", [⟨20, "G1", [baseField 1 "Weight", baseField 2 "Height", bmiField]⟩]⟩]

/-- The BMI form with `Weight="70,5"`, `Height="1,80"`. -/
def bmiState : EngState :=
  applyLoaded (buildState "муж" bmiStruct) [(1, "70,5"), (2, "1,80")]

/-- The BMI form with `Height` blank. -/
def bmiStateBlank : EngState :=
  applyLoaded (buildState "муж" bmiStruct) [(1, "70,5")]

/-- A `словарь` (choice) field with the given options. -/
def choiceField (i : Nat) (nm : String) (opts : List String) : FieldSpec :=
  { baseField i nm with field_type := "словарь", precision := none, options := opts }

/-- A plain string field. -/
def strField (i : Nat) (nm : String) : FieldSpec :=
  { baseField i nm with field_type := "строка", precision := none }

/-- A hidden-by-default string field wired to trigger field `trig`. -/
def hiddenField (i : Nat) (nm : String) (trig : Nat) : FieldSpec :=
  { strField i nm with is_hidden := true, trigger_field_id := some trig }

/-- Trigger structure: choice field 1 with options `["none","A","B"]` and
hidden field 2 wired to it. -/
def trigStruct : Structure :=
  [⟨10, "T", [⟨20, "G", [choiceField 1 "Trig" ["none", "A", "B"], hiddenField 2 "H" 1]⟩]⟩]

/-- The trigger form with the trigger's current text set to `v`. -/
def trigState (v : String) : EngState :=
  applyLoaded (buildState "муж" trigStruct) (if v = "" then [] else [(1, v)])

/-- A formula field `sqrt(Tab1.G1.Weight)` next to a numeric `Weight`. -/
def sqrtField : FieldSpec :=
  { baseField 4 "R" with field_type := "формула", formula := some "sqrt(Tab1.G1.Weight)" }

def sqrtStruct : Structure :=
  [⟨10, "Tab1", [⟨20, "G1", [baseField 1 "Weight", sqrtField]⟩]⟩]

def sqrtState : EngState := applyLoaded (buildState "муж" sqrtStruct) [(1, "4")]

/-- One string field, used for the round-trip counterexample. -/
def wsStruct : Structure := [⟨10, "T", [⟨20, "G", [strField 1 "S"]⟩]⟩]

/-- Its state with the single field holding one space. -/
def wsState : EngState := applyLoaded (buildState "муж" wsStruct) [(1, " ")]

/-- Two tabs: `T1.G1.X` (number) and, on the second tab, formula field `F`
referencing it. -/
def twoTabStruct : Structure :=
  [⟨10, "T1", [⟨20, "G1", [{ baseField 1 "X" with precision := some 1 }]⟩]⟩,
   ⟨11, "T2", [⟨21, "G2",
     [{ baseField 2 "F" with
        field_type := "формула", precision := some 1, formula := some "T1.G1.X" }]⟩]⟩]

/-- The two-tab form with `X = "2"`, formulas settled. -/
def twoTabState : EngState :=
  recalcFormulas (applyLoaded (buildState "муж" twoTabStruct) [(1, "2")])

/-- A hidden field whose trigger id `999` matches no field. -/
def danglingStruct : Structure := [⟨10, "T", [⟨20, "G", [hiddenField 1 "H" 999]⟩]⟩]

/-- A number field with male reference range `[3.0, 5.0]`. -/
def rangeStruct : Structure :=
  [⟨10, "T", [⟨20, "G",
    [{ baseField 1 "N" with ref_male_min := some ⟨3, 1⟩, ref_male_max := some ⟨5, 1⟩ }]⟩]⟩]

def rangeState (v : String) : EngState :=
  applyLoaded (buildState "муж" rangeStruct) [(1, v)]

/-- Two formula fields where `F1` references `F2` (a formula): the
dependency evaluator needs two runs to settle. -/
def chainStruct : Structure :=
  [⟨10, "T", [⟨20, "G",
    [{ baseField 1 "F1" with field_type := "формула", formula := some "T.G.F2" },
     { baseField 2 "F2" with field_type := "формула", formula := some "2" }]⟩]⟩]

def chainState : EngState := buildState "муж" chainStruct

/-! ## C5: the worked formula example -/

/-- C5 (confirmed): on the structure `Tab1.G1.{Weight, Height, BMI}` with
formula `Tab1.G1.Weight / (Tab1.G1.Height * Tab1.G1.Height)` and precision
2, recomputation writes `"21,76"` into the formula field when
`Weight="70,5"` and `Height="1,80"`; with `Height` blank it writes the
empty string (not `0`, and no error — the evaluator is total). -/
theorem C5_formula_example :
    ((recalcFormulas bmiState).findBinding 3).map Binding.getStr = some "21,76" ∧
    ((recalcFormulas bmiStateBlank).findBinding 3).map Binding.getStr = some "" := by
  decide

/-! ## Counterexamples for the corrected claims -/

/-- C1 counterexample: a reachable state whose single (string) field holds
`" "` (one space).  `collect` yields `(1, " ")`; the store omits the
blank-after-strip value; reopening yields `(1, "")`.  The two maps differ,
and no numeric re-rounding is involved (the field is not numeric), so the
round-trip claim as stated is false. -/
theorem C1_counterexample :
    collectValues wsState = [(1, " ")] ∧
    savedPairs (collectValues wsState) = [] ∧
    collectValues (reopen "муж" wsStruct (savedPairs (collectValues wsState))) =
      [(1, "")] ∧
    collectValues (reopen "муж" wsStruct (savedPairs (collectValues wsState))) ≠
      collectValues wsState := by
  decide

/-- C2 counterexample: with trigger options `["none","A","B"]` and the
trigger's current value `" "` (a single space) — which is non-empty and not
equal to `"none"`, so the claim requires the hidden field to be visible —
`_update_hidden` hides the field, because it compares stripped values and
treats the whitespace-only value as empty. -/
theorem C2_counterexample :
    ((trigState " ").findBinding 1).map Binding.getStr = some " " ∧
    some " " ≠ some "" ∧ some " " ≠ some "none" ∧
    ((updateHidden (trigState " ") 1).findBinding 2).map (·.containerVisible) =
      some false := by
  decide

/-- C3 counterexample: field 2 is a formula field on tab 11 referencing
`T1.G1.X` on tab 10.  With `X="2"` it holds `"2,0"`; clearing tab 10
re-runs the (global) formula recomputation, which clears field 2 — a value
change on a field belonging to another tab, contradicting the claim's
frame condition. -/
theorem C3_counterexample :
    (twoTabState.findBinding 2).map (fun b => (b.meta.tab_id, b.getStr)) =
      some (11, "2,0") ∧
    ((clearTab twoTabState 10).findBinding 2).map Binding.getStr = some "" := by
  decide

/-- C4 counterexample: the formula `sqrt(Tab1.G1.Weight)` whose single
reference resolves to the non-empty numeric value `"4"` — the claim says a
substituted expression using `sqrt` still evaluates to a numeric result —
is rejected: the substituted text `sqrt(4)` contains letters, which the
character whitelist refuses, so evaluation yields no result. -/
theorem C4_counterexample :
    buildValues sqrtState (findTriples "sqrt(Tab1.G1.Weight)") [] =
      some [("Tab1.G1.Weight", "4")] ∧
    evaluateFormula sqrtState "sqrt(Tab1.G1.Weight)" = none := by
  decide

/-- C8 counterexample: a hidden-by-default field whose `triggerFieldId`
(999) matches no field in the structure.  The engine does not crash (the
model's operations are total functions mirroring the guarded call sites),
but after building and a full evaluator pass the field is *invisible* —
permanently hidden, not "always-visible" as the claim states. -/
theorem C8_counterexample :
    ((reopen "муж" danglingStruct []).findBinding 1).map (·.containerVisible) =
      some false := by
  decide

/-! ## Plumbing lemmas -/

/-- `find?` by id commutes with mapping an id-preserving transform. -/
theorem find?_map_pres (g : Binding → Binding)
    (hg : ∀ b, (g b).meta.id = b.meta.id) (l : List Binding) (fid : Nat) :
    (l.map g).find? (fun b => b.meta.id = fid) =
      (l.find? (fun b => b.meta.id = fid)).map g := by
  induction l with
  | nil => rfl
  | cons b t ih =>
    simp only [List.map_cons, List.find?, hg b]
    by_cases h : b.meta.id = fid
    · simp [h]
    · simp [h, ih]

theorem findBinding_fieldsMap (s : EngState) (g : Binding → Binding)
    (hg : ∀ b, (g b).meta.id = b.meta.id) (fid : Nat) :
    EngState.findBinding { s with fields := s.fields.map g } fid =
      (s.findBinding fid).map g := by
  unfold EngState.findBinding
  exact find?_map_pres g hg s.fields fid

theorem findBinding_mapBinding_proj {α} (π : Binding → α) (f : Binding → Binding)
    (hf : ∀ b, (f b).meta.id = b.meta.id) (hπ : ∀ b, π (f b) = π b)
    (s : EngState) (fid fid2 : Nat) :
    ((s.mapBinding fid f).findBinding fid2).map π = (s.findBinding fid2).map π := by
  unfold EngState.mapBinding
  rw [findBinding_fieldsMap]
  · rw [Option.map_map]
    congr 1
    funext b
    by_cases h : b.meta.id = fid <;> simp [h, hπ]
  · intro b
    by_cases h : b.meta.id = fid <;> simp [h, hf]

/-! ## C2: the trigger-visibility rule -/

/-- C2 (corrected): for a hidden field `hid` wired to trigger `tid`, after
`_update_hidden`: if the trigger widget is a choice combo whose first
option is `o`, `hid` is visible iff the trigger's *stripped* value is
non-blank and differs from the stripped `o`; if it is a `template_multi`
combo, `hid` is visible iff the stripped joined selection is non-blank and
the selected parts differ from the one-element list holding only the
stripped first option.  In every case the hidden field's stored value is
unchanged.  (The claim as literally stated — with unstripped comparisons —
is refuted by `C2_counterexample`.) -/
theorem C2_visibility_rule (s : EngState) (tid hid : Nat) (targets : List Nat)
    (hT : hbtGet s.hiddenByTrigger tid = some targets) (hmem : hid ∈ targets) :
    (((updateHidden s tid).findBinding hid).map Binding.getStr =
      (s.findBinding hid).map Binding.getStr) ∧
    (∀ o rest t b2,
      (s.findBinding tid).map (·.widget) = some (.comboBox (o :: rest) t) →
      (updateHidden s tid).findBinding hid = some b2 →
      (b2.containerVisible = true ↔ (pyStrip t ≠ "" ∧ pyStrip t ≠ pyStrip o))) ∧
    (∀ o ch rest et b2,
      (s.findBinding tid).map (·.widget) = some (.comboMulti ((o, ch) :: rest) et) →
      (updateHidden s tid).findBinding hid = some b2 →
      (b2.containerVisible = true ↔
        (pyStrip (Widget.getStr (.comboMulti ((o, ch) :: rest) et)) ≠ "" ∧
          ((pySplit (pyStrip (Widget.getStr (.comboMulti ((o, ch) :: rest) et)))
              templateMultiDelim).map pyStrip).filter (¬ ·.isEmpty) ≠ [pyStrip o]))) := by
  refine ⟨?_, ?_, ?_⟩
  · unfold updateHidden
    rw [hT]
    cases htb : s.findBinding tid with
    | none => simp
    | some tb =>
      simp only
      rw [findBinding_fieldsMap]
      · rw [Option.map_map]
        congr 1
        funext b
        by_cases h : b.meta.id ∈ targets <;> simp [h, Binding.getStr]
      · intro b
        by_cases h : b.meta.id ∈ targets <;> simp [h]
  · intro o rest t b2 hw hb2
    obtain ⟨tb, htb, htw⟩ : ∃ tb, s.findBinding tid = some tb ∧
        tb.widget = .comboBox (o :: rest) t := by
      cases h : s.findBinding tid with
      | none => rw [h] at hw; exact absurd hw (by simp)
      | some tb => rw [h] at hw; exact ⟨tb, rfl, by simpa using hw⟩
    unfold updateHidden at hb2
    rw [hT, htb] at hb2
    simp only at hb2
    rw [findBinding_fieldsMap] at hb2
    · cases hb1 : s.findBinding hid with
      | none => rw [hb1] at hb2; simp at hb2
      | some b1 =>
        rw [hb1] at hb2
        simp only [Option.map_some'] at hb2
        obtain rfl := Option.some.inj hb2
        have hc : targets.contains hid = true := by
          simpa using hmem
        have hid1 : b1.meta.id = hid := by
          have := List.find?_some hb1
          simpa using this
        simp only [hid1, hc, if_true, Binding.getStr, shownFor, htw]
        simp only [Widget.firstChoiceText, Widget.isCombo, Widget.getStr, Widget.isMulti]
        by_cases h0 : pyStrip t = ""
        · simp [h0]
        · simp [h0]
    · intro b
      by_cases h : b.meta.id ∈ targets <;> simp [h]
  · intro o ch rest et b2 hw hb2
    obtain ⟨tb, htb, htw⟩ : ∃ tb, s.findBinding tid = some tb ∧
        tb.widget = .comboMulti ((o, ch) :: rest) et := by
      cases h : s.findBinding tid with
      | none => rw [h] at hw; exact absurd hw (by simp)
      | some tb => rw [h] at hw; exact ⟨tb, rfl, by simpa using hw⟩
    unfold updateHidden at hb2
    rw [hT, htb] at hb2
    simp only at hb2
    rw [findBinding_fieldsMap] at hb2
    · cases hb1 : s.findBinding hid with
      | none => rw [hb1] at hb2; simp at hb2
      | some b1 =>
        rw [hb1] at hb2
        simp only [Option.map_some'] at hb2
        obtain rfl := Option.some.inj hb2
        have hc : targets.contains hid = true := by
          simpa using hmem
        have hid1 : b1.meta.id = hid := by
          have := List.find?_some hb1
          simpa using this
        simp only [hid1, hc, if_true, Binding.getStr, shownFor, htw]
        simp only [Widget.firstChoiceText, Widget.isCombo, Widget.getStr, Widget.isMulti]
        by_cases h0 : pyStrip (pyJoin templateMultiDelim
            ((((o, ch) :: rest).filter (·.2)).map (·.1))) = ""
        · simp [h0]
        · simp [h0]
    · intro b
      by_cases h : b.meta.id ∈ targets <;> simp [h]

/-- Witness for `C2_visibility_rule` at the spec's own scenario: options
`["none","A","B"]`; value `"A"` shows the hidden field, value `"none"`
hides it and leaves its stored value untouched. -/
theorem C2_visibility_witness :
    ((updateHidden (trigState "A") 1).findBinding 2).map (·.containerVisible) =
      some true ∧
    ((updateHidden (trigState "none") 1).findBinding 2).map (·.containerVisible) =
      some false ∧
    ((updateHidden (trigState "none") 1).findBinding 2).map Binding.getStr =
      ((trigState "none").findBinding 2).map Binding.getStr := by
  refine ⟨?_, ?_, ?_⟩
  · have h := C2_visibility_rule (trigState "A") 1 2 [2] (by decide) (by decide)
    cases hb : (updateHidden (trigState "A") 1).findBinding 2 with
    | none => exact absurd hb (by decide)
    | some b2 =>
      have h2 := h.2.1 "none" ["A", "B"] "A" b2 (by decide) hb
      simp only [Option.map_some']
      have : b2.containerVisible = true := h2.mpr (by decide)
      rw [this]
  · have h := C2_visibility_rule (trigState "none") 1 2 [2] (by decide) (by decide)
    cases hb : (updateHidden (trigState "none") 1).findBinding 2 with
    | none => exact absurd hb (by decide)
    | some b2 =>
      have h2 := h.2.1 "none" ["A", "B"] "none" b2 (by decide) hb
      simp only [Option.map_some']
      have : ¬ b2.containerVisible = true := fun hc => by
        have := h2.mp hc
        exact this.2 (by decide)
      simp [this]
  · exact (C2_visibility_rule (trigState "none") 1 2 [2] (by decide) (by decide)).1

/-! ## Preservation lemmas

Which parts of a binding each engine operation can change:
`_check_reference` and `_recalculate_formulas` touch only widgets and the
out-of-range flag (never meta or visibility); `_update_hidden` touches only
the two visibility flags; the load loop touches only widgets. -/

theorem mapBinding_vis (s : EngState) (fid fid2 : Nat) (f : Binding → Binding)
    (hf1 : ∀ b, (f b).meta = b.meta)
    (hf2 : ∀ b, (f b).containerVisible = b.containerVisible)
    (hf3 : ∀ b, (f b).labelVisible = b.labelVisible) :
    ((s.mapBinding fid f).findBinding fid2).map visProj =
      (s.findBinding fid2).map visProj :=
  findBinding_mapBinding_proj visProj f (fun b => by rw [hf1])
    (fun b => by simp [visProj, hf1, hf2, hf3]) s fid fid2

/-- Any `mapBinding` whose transform keeps meta and the visibility flags
leaves the `visProj` view of every binding unchanged. -/
theorem mapBinding_wf_vis (s : EngState) (fid fid2 : Nat)
    (g : Binding → Widget) (h : Binding → Bool) :
    ((s.mapBinding fid (fun b2 =>
        { meta := b2.meta, widget := g b2, containerVisible := b2.containerVisible
          labelVisible := b2.labelVisible, flagged := h b2 })).findBinding fid2).map
      visProj = (s.findBinding fid2).map visProj :=
  findBinding_mapBinding_proj visProj
    (fun b2 => { meta := b2.meta, widget := g b2, containerVisible := b2.containerVisible
                 labelVisible := b2.labelVisible, flagged := h b2 })
    (fun _ => rfl) (fun _ => rfl) s fid fid2

theorem checkReference_vis (s : EngState) (fid fid2 : Nat) :
    ((checkReference s fid).findBinding fid2).map visProj =
      (s.findBinding fid2).map visProj := by
  unfold checkReference
  cases h : s.findBinding fid with
  | none => rfl
  | some b =>
    simp only
    repeat' split
    all_goals
      first
      | rfl
      | simp only [mapBinding_wf_vis]

theorem recalcStep_vis (s : EngState) (i : Nat) (fid2 : Nat) :
    ((recalcStep s i).findBinding fid2).map visProj =
      (s.findBinding fid2).map visProj := by
  unfold recalcStep
  split
  · rfl
  · split
    · rfl
    · split
      · rfl
      · split
        · rfl
        · split
          · simp only [mapBinding_wf_vis]
          · rw [checkReference_vis]
            simp only [mapBinding_wf_vis]

theorem recalcAux_vis (fuel : Nat) : ∀ (i : Nat) (s : EngState) (fid2 : Nat),
    ((recalcAux fuel i s).findBinding fid2).map visProj =
      (s.findBinding fid2).map visProj := by
  induction fuel with
  | zero => intro i s fid2; rfl
  | succ fuel ih =>
    intro i s fid2
    show ((recalcAux fuel (i + 1) (recalcStep s i)).findBinding fid2).map visProj = _
    rw [ih, recalcStep_vis]

theorem recalcFormulas_vis (s : EngState) (fid2 : Nat) :
    ((recalcFormulas s).findBinding fid2).map visProj =
      (s.findBinding fid2).map visProj :=
  recalcAux_vis s.fields.length 0 s fid2

theorem applyLoaded_vis (vals : List (Nat × String)) : ∀ (s : EngState) (fid2 : Nat),
    ((applyLoaded s vals).findBinding fid2).map visProj =
      (s.findBinding fid2).map visProj := by
  induction vals with
  | nil => intro s fid2; rfl
  | cons p rest ih =>
    intro s fid2
    show ((applyLoaded (if _ then _ else s) rest).findBinding fid2).map visProj = _
    rw [ih]
    split
    · simp only [mapBinding_wf_vis]
    · rfl

theorem updateHidden_val (s : EngState) (tid fid2 : Nat) :
    ((updateHidden s tid).findBinding fid2).map valProj =
      (s.findBinding fid2).map valProj := by
  unfold updateHidden
  cases h1 : hbtGet s.hiddenByTrigger tid with
  | none => rfl
  | some targets =>
    simp only
    cases h2 : s.findBinding tid with
    | none => rfl
    | some tb =>
      simp only
      rw [findBinding_fieldsMap]
      · rw [Option.map_map]
        congr 1
        funext b
        by_cases h : b.meta.id ∈ targets <;> simp [h, valProj]
      · intro b
        by_cases h : b.meta.id ∈ targets <;> simp [h]

theorem trigSyncAll_val (s : EngState) (fid2 : Nat) :
    ((trigSyncAll s).findBinding fid2).map valProj =
      (s.findBinding fid2).map valProj := by
  unfold trigSyncAll
  generalize s.hiddenByTrigger = l
  induction l generalizing s with
  | nil => rfl
  | cons p rest ih =>
    show ((List.foldl _ (if _ then updateHidden s p.1 else s) rest).findBinding
      fid2).map valProj = _
    rw [ih]
    split
    · exact updateHidden_val s p.1 fid2
    · rfl

theorem statics_mapBinding (s : EngState) (fid : Nat) (f : Binding → Binding) :
    statics (s.mapBinding fid f) = statics s := rfl

theorem statics_updateHidden (s : EngState) (tid : Nat) :
    statics (updateHidden s tid) = statics s := by
  unfold updateHidden
  repeat' split
  all_goals rfl

theorem statics_checkReference (s : EngState) (fid : Nat) :
    statics (checkReference s fid) = statics s := by
  simp only [checkReference]
  repeat' split
  all_goals try rw [statics_mapBinding]
  all_goals rfl

theorem statics_recalcStep (s : EngState) (i : Nat) :
    statics (recalcStep s i) = statics s := by
  unfold recalcStep
  repeat' split
  all_goals
    first
    | rfl
    | simp only [statics_checkReference, statics_mapBinding]

theorem statics_recalcAux (fuel : Nat) : ∀ (i : Nat) (s : EngState),
    statics (recalcAux fuel i s) = statics s := by
  induction fuel with
  | zero => intro i s; rfl
  | succ fuel ih =>
    intro i s
    show statics (recalcAux fuel (i + 1) (recalcStep s i)) = statics s
    rw [ih, statics_recalcStep]

theorem statics_recalcFormulas (s : EngState) :
    statics (recalcFormulas s) = statics s :=
  statics_recalcAux s.fields.length 0 s

theorem statics_applyLoaded (vals : List (Nat × String)) : ∀ s : EngState,
    statics (applyLoaded s vals) = statics s := by
  induction vals with
  | nil => intro s; rfl
  | cons p rest ih =>
    intro s
    show statics (applyLoaded (if _ then _ else s) rest) = statics s
    rw [ih]
    split
    · rfl
    · rfl

theorem statics_trigSyncAll (s : EngState) : statics (trigSyncAll s) = statics s := by
  unfold trigSyncAll
  generalize s.hiddenByTrigger = l
  induction l generalizing s with
  | nil => rfl
  | cons p rest ih =>
    show statics (List.foldl _ (if _ then updateHidden s p.1 else s) rest) = statics s
    rw [ih]
    split
    · exact statics_updateHidden s p.1
    · rfl

/-- A `valProj`-preserving operation preserves binding existence. -/
theorem findBinding_isSome_of_val {s s2 : EngState} (fid : Nat)
    (h : (s2.findBinding fid).map valProj = (s.findBinding fid).map valProj) :
    (s2.findBinding fid).isSome = (s.findBinding fid).isSome := by
  cases h1 : s.findBinding fid <;> cases h2 : s2.findBinding fid <;>
    rw [h1, h2] at h <;> simp_all

/-- `_update_hidden(tid)` leaves every binding that is not one of `tid`'s
targets entirely unchanged in meta and visibility. -/
theorem updateHidden_vis_nontarget (s : EngState) (tid fid : Nat)
    (h : ∀ l, hbtGet s.hiddenByTrigger tid = some l → fid ∉ l) :
    ((updateHidden s tid).findBinding fid).map visProj =
      (s.findBinding fid).map visProj := by
  unfold updateHidden
  cases h1 : hbtGet s.hiddenByTrigger tid with
  | none => rfl
  | some targets =>
    simp only
    cases h2 : s.findBinding tid with
    | none => rfl
    | some tb =>
      simp only
      rw [findBinding_fieldsMap]
      · rw [Option.map_map]
        cases hb : s.findBinding fid with
        | none => rfl
        | some b =>
          have hid : b.meta.id = fid := by
            have := List.find?_some hb
            simpa using this
          have : b.meta.id ∉ targets := hid ▸ h targets h1
          simp [this]
      · intro b
        by_cases hm : b.meta.id ∈ targets <;> simp [hm]

/-- The trigger-sync loop leaves a field untouched when every trigger list
containing it belongs to a trigger id with no binding (the malformed-schema
situation). -/
theorem trigSyncAll_vis_dangling (s : EngState) (fid : Nat)
    (hnot : ∀ t l, hbtGet s.hiddenByTrigger t = some l → fid ∈ l →
      s.findBinding t = none) :
    ((trigSyncAll s).findBinding fid).map visProj =
      (s.findBinding fid).map visProj := by
  unfold trigSyncAll
  have key : ∀ (l : List (Nat × List Nat)) (st : EngState),
      st.hiddenByTrigger = s.hiddenByTrigger →
      (∀ t, (st.findBinding t).isSome = (s.findBinding t).isSome) →
      ((l.foldl (fun st2 p =>
          if (st2.findBinding p.1).isSome then updateHidden st2 p.1 else st2) st
        ).findBinding fid).map visProj = (st.findBinding fid).map visProj := by
    intro l
    induction l with
    | nil => intro st _ _; rfl
    | cons p rest ih =>
      intro st hstat hsome
      show ((rest.foldl _ (if (st.findBinding p.1).isSome then updateHidden st p.1
        else st)).findBinding fid).map visProj = _
      by_cases hp : (st.findBinding p.1).isSome
      · rw [if_pos hp]
        have hstat2 : (updateHidden st p.1).hiddenByTrigger = s.hiddenByTrigger := by
          have := statics_updateHidden st p.1
          simp only [statics] at this
          rw [show (updateHidden st p.1).hiddenByTrigger =
            st.hiddenByTrigger from congrArg (fun x => x.2.2) this, hstat]
        have hsome2 : ∀ t, ((updateHidden st p.1).findBinding t).isSome =
            (s.findBinding t).isSome := by
          intro t
          rw [findBinding_isSome_of_val t (updateHidden_val st p.1 t), hsome t]
        rw [ih (updateHidden st p.1) hstat2 hsome2]
        apply updateHidden_vis_nontarget
        intro l2 hl2 hmem
        have hs : s.findBinding p.1 = none := hnot p.1 l2 (hstat ▸ hl2) hmem
        rw [hsome p.1, hs] at hp
        simp at hp
      · rw [if_neg hp]
        exact ih st hstat hsome
  exact key s.hiddenByTrigger s rfl (fun _ => rfl)

/-- A projection-preserving operation preserves binding existence. -/
theorem findBinding_isSome_of_proj {α} (π : Binding → α) {s s2 : EngState} (fid : Nat)
    (h : (s2.findBinding fid).map π = (s.findBinding fid).map π) :
    (s2.findBinding fid).isSome = (s.findBinding fid).isSome := by
  cases h1 : s.findBinding fid <;> cases h2 : s2.findBinding fid <;>
    rw [h1, h2] at h <;> simp_all

/-! ## C8: malformed trigger references -/

/-- C8 (corrected): the engine does not crash on a malformed
`triggerFieldId` (all modelled operations are total, mirroring the guarded
call sites), but it does **not** treat the field as always-visible:

* a hidden-by-default field all of whose wiring points at trigger ids with
  no binding keeps its initial hidden state through the whole open pipeline
  (value load, trigger sync, formula recomputation) and through any
  dependency-evaluator pass;
* if the trigger id resolves to a field whose widget is not a combo (a
  non-choice trigger), `_update_hidden` falls back to the legacy rule: the
  field is visible iff its stored `triggerValue` is a non-empty string
  whose stripped text equals the trigger's stripped current value. -/
theorem C8_trigger_malformed (s : EngState) (vals : List (Nat × String)) (fid : Nat) :
    ((s.findBinding fid).map (fun b => (b.meta.is_hidden, b.containerVisible)) =
        some (true, false) →
      (∀ t l, hbtGet s.hiddenByTrigger t = some l → fid ∈ l →
        s.findBinding t = none) →
      ((recalcFormulas (loadExisting s vals)).findBinding fid).map
          (fun b => (b.meta.is_hidden, b.containerVisible)) = some (true, false) ∧
      ((evalPass s).findBinding fid).map
          (fun b => (b.meta.is_hidden, b.containerVisible)) = some (true, false)) ∧
    (∀ tid targets tb txt b2,
      hbtGet s.hiddenByTrigger tid = some targets → fid ∈ targets →
      s.findBinding tid = some tb → tb.widget = .lineEdit txt →
      (updateHidden s tid).findBinding fid = some b2 →
      (b2.containerVisible = true ↔
        ∃ w, b2.meta.trigger_value = some w ∧ w ≠ "" ∧ pyStrip txt = pyStrip w)) := by
  constructor
  · intro hvis hnot
    have hg : ∀ (x y : Option Binding), x.map visProj = y.map visProj →
        x.map (fun b => (b.meta.is_hidden, b.containerVisible)) =
          y.map (fun b => (b.meta.is_hidden, b.containerVisible)) := by
      intro x y h
      have := congrArg (Option.map (fun p : FieldMeta × Bool × Bool =>
        (p.1.is_hidden, p.2.1))) h
      simpa [Option.map_map, Function.comp, visProj] using this
    constructor
    · have h1 : ((recalcFormulas (loadExisting s vals)).findBinding fid).map visProj =
          ((loadExisting s vals).findBinding fid).map visProj :=
        recalcFormulas_vis _ fid
      have hstat : (applyLoaded s vals).hiddenByTrigger = s.hiddenByTrigger :=
        congrArg (fun p => p.2.2) (statics_applyLoaded vals s)
      have hnot2 : ∀ t l, hbtGet (applyLoaded s vals).hiddenByTrigger t = some l →
          fid ∈ l → (applyLoaded s vals).findBinding t = none := by
        intro t l hl hm
        have hs : s.findBinding t = none := hnot t l (hstat ▸ hl) hm
        have hiso := findBinding_isSome_of_proj visProj t (applyLoaded_vis vals s t)
        rw [hs] at hiso
        cases h2 : (applyLoaded s vals).findBinding t with
        | none => rfl
        | some b => rw [h2] at hiso; simp at hiso
      have h2 : ((loadExisting s vals).findBinding fid).map visProj =
          ((applyLoaded s vals).findBinding fid).map visProj :=
        trigSyncAll_vis_dangling _ fid hnot2
      have h3 : ((applyLoaded s vals).findBinding fid).map visProj =
          (s.findBinding fid).map visProj := applyLoaded_vis vals s fid
      rw [hg _ _ (h1.trans (h2.trans h3))]
      exact hvis
    · have h1 : ((evalPass s).findBinding fid).map visProj =
          ((trigSyncAll s).findBinding fid).map visProj := recalcFormulas_vis _ fid
      have h2 : ((trigSyncAll s).findBinding fid).map visProj =
          (s.findBinding fid).map visProj := trigSyncAll_vis_dangling s fid hnot
      rw [hg _ _ (h1.trans h2)]
      exact hvis
  · intro tid targets tb txt b2 hT hmem htb htw hb2
    unfold updateHidden at hb2
    rw [hT, htb] at hb2
    simp only at hb2
    rw [findBinding_fieldsMap] at hb2
    · cases hb1 : s.findBinding fid with
      | none => rw [hb1] at hb2; simp at hb2
      | some b1 =>
        rw [hb1] at hb2
        simp only [Option.map_some'] at hb2
        obtain rfl := Option.some.inj hb2
        have hc : targets.contains fid = true := by simpa using hmem
        have hid1 : b1.meta.id = fid := by
          have := List.find?_some hb1
          simpa using this
        simp only [hid1, hc, if_true, Binding.getStr, shownFor, htw]
        simp only [Widget.firstChoiceText]
        cases hw : b1.meta.trigger_value with
        | none => simp [hw]
        | some w =>
          by_cases h0 : w = "" <;> by_cases h1 : pyStrip txt = pyStrip w <;>
            simp [hw, h0, h1, Widget.getStr]
    · intro b
      by_cases hm : b.meta.id ∈ targets <;> simp [hm]

/-- Witness for `C8_trigger_malformed`: the concrete structure with a
hidden field wired to the nonexistent trigger id 999 stays hidden through
`reopen` and through an evaluator pass. -/
theorem C8_trigger_malformed_witness :
    ((reopen "муж" danglingStruct []).findBinding 1).map
        (fun b => (b.meta.is_hidden, b.containerVisible)) = some (true, false) ∧
    ((evalPass (buildState "муж" danglingStruct)).findBinding 1).map
        (fun b => (b.meta.is_hidden, b.containerVisible)) = some (true, false) := by
  have hnot : ∀ t l,
      hbtGet (buildState "муж" danglingStruct).hiddenByTrigger t = some l →
      (1 : Nat) ∈ l → (buildState "муж" danglingStruct).findBinding t = none := by
    intro t l hl hm
    have hbt : (buildState "муж" danglingStruct).hiddenByTrigger = [(999, [1])] := by
      decide
    rw [hbt] at hl
    unfold hbtGet at hl
    by_cases ht : (999 : Nat) = t
    · subst ht
      decide
    · simp [List.find?, ht] at hl
  have h := (C8_trigger_malformed (buildState "муж" danglingStruct) [] 1).1
    (by decide) hnot
  exact ⟨h.1, h.2⟩

/-! ## C3 machinery: the footprint of `_recalculate_formulas`

Formula recomputation writes only to formula fields; every other binding is
untouched.  Field ids are database primary keys, so the well-formedness
hypothesis `NodupIds` (no two bindings share an id) mirrors reality. -/

/-- `mapBinding` at a different id leaves a binding unchanged. -/
theorem findBinding_mapBinding_ne {s : EngState} {fid2 : Nat} (f : Binding → Binding)
    (hf : ∀ b, (f b).meta.id = b.meta.id) {fid : Nat} (h : fid ≠ fid2) :
    (s.mapBinding fid2 f).findBinding fid = s.findBinding fid := by
  unfold EngState.mapBinding
  rw [findBinding_fieldsMap]
  · cases hb : s.findBinding fid with
    | none => rfl
    | some b =>
      have hid : b.meta.id = fid := by
        have := List.find?_some hb
        simpa using this
      have : ¬ b.meta.id = fid2 := by rw [hid]; exact h
      simp [this]
  · intro b
    by_cases hb : b.meta.id = fid2 <;> simp [hb, hf]

/-- Rewrite-friendly form of `findBinding_mapBinding_ne` for the
meta-preserving record updates the engine performs. -/
theorem findBinding_mapBinding_wf_ne {s : EngState} {fid2 : Nat} (g : Binding → Widget)
    (h : Binding → Bool) {fid : Nat} (hne : fid ≠ fid2) :
    (s.mapBinding fid2 (fun b2 =>
      { meta := b2.meta, widget := g b2, containerVisible := b2.containerVisible
        labelVisible := b2.labelVisible, flagged := h b2 })).findBinding fid =
      s.findBinding fid :=
  findBinding_mapBinding_ne
    (fun b2 => { meta := b2.meta, widget := g b2, containerVisible := b2.containerVisible
                 labelVisible := b2.labelVisible, flagged := h b2 })
    (fun _ => rfl) hne

/-- `_check_reference` at a different id leaves a binding unchanged. -/
theorem checkReference_ne {s : EngState} {fidc fid : Nat} (hne : fid ≠ fidc) :
    (checkReference s fidc).findBinding fid = s.findBinding fid := by
  simp only [checkReference]
  repeat' split
  all_goals simp only [findBinding_mapBinding_wf_ne _ _ hne]

/-- Mapping a meta-preserving transform keeps the meta list. -/
theorem metas_fieldsMap (l : List Binding) (g : Binding → Binding)
    (hg : ∀ b, (g b).meta = b.meta) :
    (l.map g).map (fun b => b.meta) = l.map (fun b => b.meta) := by
  induction l with
  | nil => rfl
  | cons b t ih => simp [hg, ih]

theorem metas_mapBinding (s : EngState) (fid : Nat) (f : Binding → Binding)
    (hf : ∀ b, (f b).meta = b.meta) :
    (s.mapBinding fid f).fields.map (fun b => b.meta) =
      s.fields.map (fun b => b.meta) := by
  unfold EngState.mapBinding
  exact metas_fieldsMap _ _ (fun b => by by_cases hb : b.meta.id = fid <;> simp [hb, hf])

/-- Rewrite-friendly meta-list preservation for the engine's record
updates. -/
theorem metas_mapBinding_wf (s : EngState) (fid : Nat) (g : Binding → Widget)
    (h : Binding → Bool) :
    (s.mapBinding fid (fun b2 =>
      { meta := b2.meta, widget := g b2, containerVisible := b2.containerVisible
        labelVisible := b2.labelVisible, flagged := h b2 })).fields.map
        (fun b => b.meta) = s.fields.map (fun b => b.meta) :=
  metas_mapBinding s fid _ (fun _ => rfl)

theorem metas_checkReference (s : EngState) (fid : Nat) :
    (checkReference s fid).fields.map (fun b => b.meta) =
      s.fields.map (fun b => b.meta) := by
  simp only [checkReference]
  repeat' split
  all_goals simp only [metas_mapBinding_wf]

theorem metas_recalcStep (s : EngState) (i : Nat) :
    (recalcStep s i).fields.map (fun b => b.meta) = s.fields.map (fun b => b.meta) := by
  simp only [recalcStep]
  repeat' split
  all_goals
    first
    | rfl
    | rw [metas_mapBinding_wf]
    | (rw [metas_checkReference, metas_mapBinding_wf])

/-- A state with the same meta list keeps `NodupIds`. -/
theorem nodup_of_metas_eq {s s2 : EngState}
    (h : s2.fields.map (fun b => b.meta) = s.fields.map (fun b => b.meta))
    (hnd : NodupIds s) : NodupIds s2 := by
  unfold NodupIds at *
  have h2 : s2.fields.map (fun b => b.meta.id) = s.fields.map (fun b => b.meta.id) := by
    have := congrArg (List.map (fun m : FieldMeta => m.id)) h
    simpa [List.map_map, Function.comp] using this
  rw [h2]
  exact hnd

/-- With distinct ids, a binding found by id is the only one carrying it. -/
theorem findBinding_unique (s : EngState) (hnd : NodupIds s) {fid : Nat} {b : Binding}
    (hb : s.findBinding fid = some b) {b2 : Binding} (h2 : b2 ∈ s.fields)
    (hid : b2.meta.id = fid) : b2 = b := by
  have hb1 : b ∈ s.fields := List.mem_of_find?_eq_some hb
  have hbid : b.meta.id = fid := by
    have := List.find?_some hb
    simpa using this
  exact List.inj_on_of_nodup_map hnd h2 hb1 (by rw [hid, hbid])

/-- One recomputation step leaves a non-formula binding untouched. -/
theorem recalcStep_nonformula (s : EngState) (i fid : Nat) (b : Binding)
    (hnd : NodupIds s) (hb : s.findBinding fid = some b)
    (hty : b.meta.field_type ≠ "формула") :
    (recalcStep s i).findBinding fid = some b := by
  unfold recalcStep
  cases hi : s.fields.get? i with
  | none => exact hb
  | some bi =>
    simp only
    by_cases hbi : bi.meta.field_type ≠ "формула"
    · rw [if_pos hbi]; exact hb
    · rw [if_neg hbi]
      push_neg at hbi
      have hne : fid ≠ bi.meta.id := by
        intro he
        have hmem : bi ∈ s.fields := List.get?_mem hi
        have : bi = b := findBinding_unique s hnd hb hmem he.symm
        rw [this] at hbi
        exact hty hbi
      cases hf : bi.meta.formula with
      | none => exact hb
      | some f =>
        simp only
        split
        · exact hb
        · cases he : evaluateFormula s f with
          | none =>
            rw [findBinding_mapBinding_wf_ne _ _ hne]
            exact hb
          | some r =>
            simp only
            rw [checkReference_ne hne, findBinding_mapBinding_wf_ne _ _ hne]
            exact hb

theorem recalcAux_nonformula (fuel : Nat) : ∀ (i fid : Nat) (s : EngState) (b : Binding),
    NodupIds s → s.findBinding fid = some b → b.meta.field_type ≠ "формула" →
    (recalcAux fuel i s).findBinding fid = some b := by
  induction fuel with
  | zero => intro i fid s b _ hb _; exact hb
  | succ fuel ih =>
    intro i fid s b hnd hb hty
    show (recalcAux fuel (i + 1) (recalcStep s i)).findBinding fid = some b
    exact ih (i + 1) fid (recalcStep s i) b
      (nodup_of_metas_eq (metas_recalcStep s i) hnd)
      (recalcStep_nonformula s i fid b hnd hb hty) hty

/-- `_recalculate_formulas` leaves every non-formula binding untouched. -/
theorem recalcFormulas_nonformula (s : EngState) (fid : Nat) (b : Binding)
    (hnd : NodupIds s) (hb : s.findBinding fid = some b)
    (hty : b.meta.field_type ≠ "формула") :
    (recalcFormulas s).findBinding fid = some b :=
  recalcAux_nonformula s.fields.length 0 fid s b hnd hb hty

/-! ## C3: clear-tab scoping -/

theorem metas_updateHidden (s : EngState) (tid : Nat) :
    (updateHidden s tid).fields.map (fun b => b.meta) =
      s.fields.map (fun b => b.meta) := by
  unfold updateHidden
  repeat' split
  all_goals try rfl
  all_goals
    exact metas_fieldsMap _ _ (fun b => by split <;> rfl)

/-- C3 (corrected): clearing tab `tabId` never changes the value of a
non-formula field belonging to another tab.  (Formula fields on other tabs
are *not* protected: `clear_current_tab` ends in a global
`_recalculate_formulas`, and `C3_counterexample` shows a formula field on
another tab being cleared because its reference points into the cleared
tab.) -/
theorem C3_clear_frame (s : EngState) (tabId fid : Nat) (b : Binding)
    (hnd : NodupIds s) (hb : s.findBinding fid = some b)
    (htab : b.meta.tab_id ≠ tabId) (hty : b.meta.field_type ≠ "формула") :
    ((clearTab s tabId).findBinding fid).map Binding.getStr = some b.getStr := by
  unfold clearTab
  set s1 : EngState :=
    { s with fields := s.fields.map fun b2 =>
        if b2.meta.tab_id = tabId then { b2 with widget := b2.widget.setStr "" }
        else b2 } with hs1
  have hb1 : s1.findBinding fid = some b := by
    rw [hs1, findBinding_fieldsMap]
    · rw [hb]
      simp [htab]
    · intro b2
      by_cases hm : b2.meta.tab_id = tabId <;> simp [hm]
  have hm1 : s1.fields.map (fun b2 => b2.meta) = s.fields.map (fun b2 => b2.meta) := by
    rw [hs1]
    exact metas_fieldsMap _ _ (fun b2 => by
      by_cases hm : b2.meta.tab_id = tabId <;> simp [hm])
  have hnd1 : NodupIds s1 := nodup_of_metas_eq hm1 hnd
  set s2 : EngState := s.hiddenByTrigger.foldl
    (fun st p =>
      match st.findBinding p.1 with
      | some tb => if tb.meta.tab_id = tabId then updateHidden st p.1 else st
      | none => st) s1 with hs2
  have key : ∀ (l : List (Nat × List Nat)) (st : EngState),
      ((l.foldl (fun st p =>
          match st.findBinding p.1 with
          | some tb => if tb.meta.tab_id = tabId then updateHidden st p.1 else st
          | none => st) st).findBinding fid).map valProj =
        (st.findBinding fid).map valProj ∧
      (l.foldl (fun st p =>
          match st.findBinding p.1 with
          | some tb => if tb.meta.tab_id = tabId then updateHidden st p.1 else st
          | none => st) st).fields.map (fun b2 => b2.meta) =
        st.fields.map (fun b2 => b2.meta) := by
    intro l
    induction l with
    | nil => intro st; exact ⟨rfl, rfl⟩
    | cons p rest ih =>
      intro st
      refine ⟨?_, ?_⟩
      · show ((rest.foldl _ (match st.findBinding p.1 with
          | some tb => if tb.meta.tab_id = tabId then updateHidden st p.1 else st
          | none => st)).findBinding fid).map valProj = _
        rw [(ih _).1]
        cases h : st.findBinding p.1 with
        | none => rfl
        | some tb =>
          simp only
          split
          · exact updateHidden_val st p.1 fid
          · rfl
      · show (rest.foldl _ (match st.findBinding p.1 with
          | some tb => if tb.meta.tab_id = tabId then updateHidden st p.1 else st
          | none => st)).fields.map (fun b2 : Binding => b2.meta) = _
        rw [(ih _).2]
        cases h : st.findBinding p.1 with
        | none => rfl
        | some tb =>
          simp only
          split
          · exact metas_updateHidden st p.1
          · rfl
  obtain ⟨hval2, hmet2⟩ := key s.hiddenByTrigger s1
  have hnd2 : NodupIds s2 := nodup_of_metas_eq (hs2 ▸ hmet2.trans hm1) hnd
  obtain ⟨b2, hb2, hmeta2, hwid2⟩ : ∃ b2, s2.findBinding fid = some b2 ∧
      b2.meta = b.meta ∧ b2.widget = b.widget := by
    have := hs2 ▸ hval2
    rw [hb1] at this
    cases h2 : s2.findBinding fid with
    | none => rw [h2] at this; simp at this
    | some bb =>
      rw [h2] at this
      simp only [Option.map_some', Option.some.injEq, valProj] at this
      exact ⟨bb, rfl, congrArg Prod.fst this, congrArg Prod.snd this⟩
  have := recalcFormulas_nonformula s2 fid b2 hnd2 hb2 (by rw [hmeta2]; exact hty)
  rw [this]
  simp [Binding.getStr, hwid2]

/-- Witness for `C3_clear_frame`: on the two-tab structure, clearing tab 11
leaves the value of the non-formula field `X` (id 1, on tab 10)
untouched. -/
theorem C3_clear_frame_witness :
    ((clearTab twoTabState 11).findBinding 1).map Binding.getStr = some "2" := by
  have h := C3_clear_frame twoTabState 11 1
  cases hb : twoTabState.findBinding 1 with
  | none => exact absurd hb (by decide)
  | some b =>
    have hbv : b.getStr = "2" := by
      have : (twoTabState.findBinding 1).map Binding.getStr = some "2" := by decide
      rw [hb] at this
      simpa using this
    have htab : b.meta.tab_id ≠ 11 := by
      have : (twoTabState.findBinding 1).map (fun x => x.meta.tab_id) = some 10 := by
        decide
      rw [hb] at this
      simp only [Option.map_some', Option.some.injEq] at this
      omega
    have hty : b.meta.field_type ≠ "формула" := by
      have : (twoTabState.findBinding 1).map (fun x => x.meta.field_type) =
          some "число" := by decide
      rw [hb] at this
      simp only [Option.map_some', Option.some.injEq] at this
      rw [this]
      decide
    rw [h b (by unfold NodupIds; decide) hb htab hty, hbv]

/-! ## C4: the whitelist rejects every function and constant name -/

theorem pyReplaceList_zero (pat rep cs : List Char) :
    pyReplaceList 0 pat rep cs = cs := by cases cs <;> rfl

theorem pyReplaceList_succ (fuel : Nat) (pat rep : List Char) (c : Char)
    (rest : List Char) :
    pyReplaceList (fuel + 1) pat rep (c :: rest) =
      if pat ≠ [] ∧ pat.isPrefixOf (c :: rest) then
        rep ++ pyReplaceList fuel pat rep ((c :: rest).drop pat.length)
      else c :: pyReplaceList fuel pat rep rest := rfl

theorem subOpsAux_cons (fuel : Nat) (c : Char) (rest : List Char) :
    subOpsAux (fuel + 1) (c :: rest) =
      match matchSubOps (c :: rest) with
      | some len => ' ' :: '\\' :: '1' :: ' ' :: subOpsAux fuel ((c :: rest).drop len)
      | none => c :: subOpsAux fuel rest := rfl

/-- The operator-spacing `re.sub` is the identity on backslash-free text
(its pattern begins with a literal backslash). -/
theorem subOpsAux_id (fuel : Nat) : ∀ cs : List Char, '\\' ∉ cs →
    subOpsAux fuel cs = cs := by
  induction fuel with
  | zero => intro cs _; cases cs <;> rfl
  | succ fuel ih =>
    intro cs hnb
    cases cs with
    | nil => rfl
    | cons c rest =>
      have hc : c ≠ '\\' := fun h => hnb (h ▸ List.mem_cons_self c rest)
      have hm : matchSubOps (c :: rest) = none := by
        simp only [matchSubOps]
        rw [if_neg hc]
      rw [subOpsAux_cons, hm]
      simp only
      rw [ih rest (fun h => hnb (List.mem_cons_of_mem c h))]

/-- A character other than the pattern survives a single-character
`str.replace`. -/
theorem pyReplaceList_mem_single (p r : Char) (c : Char) (hcp : c ≠ p) :
    ∀ (fuel : Nat) (cs : List Char), c ∈ cs →
      c ∈ pyReplaceList fuel [p] [r] cs := by
  intro fuel
  induction fuel with
  | zero => intro cs hc; rw [pyReplaceList_zero]; exact hc
  | succ fuel ih =>
    intro cs hc
    cases cs with
    | nil => simp at hc
    | cons x rest =>
      rw [pyReplaceList_succ]
      by_cases hx : x = p
      · subst hx
        rw [if_pos ⟨by simp, by simp [List.isPrefixOf]⟩]
        have hcr : c ∈ rest := by
          cases List.mem_cons.mp hc with
          | inl h => exact absurd h hcp
          | inr h => exact h
        have hdrop : (x :: rest).drop [x].length = rest := by simp
        rw [hdrop]
        exact List.mem_append.mpr (Or.inr (ih rest hcr))
      · rw [if_neg (fun hand => by
          have h2 := hand.2
          simp only [List.isPrefixOf, Bool.and_eq_true, beq_iff_eq] at h2
          first
          | exact hx h2.symm
          | exact hx h2.1.symm)]
        cases List.mem_cons.mp hc with
        | inl h => exact h ▸ List.mem_cons_self _ _
        | inr h => exact List.mem_cons_of_mem _ (ih rest h)

/-- C4 (corrected): when every reference of a formula resolves to a
non-blank value, the substituted expression is evaluated only if all of its
characters lie in `0123456789.+-*/() ` — any character outside the
whitelist (other than the decimal comma, which is first turned into a
point, and in the absence of literal backslashes, on which the dead
operator-spacing `re.sub` could fire) makes `_evaluate_formula` return no
result.  In particular every use of `sqrt`, `sin`, `cos`, `tan`, `pi` or
`e` is rejected, even though `eval`'s `allowed_names` would know them:
that provision is unreachable. -/
theorem C4_functions_rejected (s : EngState) (formula : String)
    (values : List (String × String))
    (hres : buildValues s (findTriples formula) [] = some values)
    (e : String)
    (he : e = values.foldl (fun e2 kv => pyReplace e2 kv.1 kv.2) formula)
    (hnb : '\\' ∉ e.data) (c : Char) (hc : c ∈ e.data)
    (hcn : ¬ allowedChars.contains c) (hcc : c ≠ ',') :
    evaluateFormula s formula = none := by
  unfold evaluateFormula
  rw [hres]
  simp only [← he]
  have hsub : subOps e = e := by
    unfold subOps
    rw [subOpsAux_id e.data.length e.data hnb]
  rw [hsub]
  have hmem : c ∈ (pyReplace e "," ".").data :=
    pyReplaceList_mem_single ',' '.' c hcc e.data.length e.data hc
  have : ¬ (pyReplace e "," ".").data.all (fun c2 => allowedChars.contains c2) := by
    intro hall
    exact hcn (by simpa using List.all_eq_true.mp hall c hmem)
  rw [if_neg this]

/-- Witness for `C4_functions_rejected` at the counterexample's scenario:
`sqrt(Tab1.G1.Weight)` with `Weight = "4"` substitutes to `sqrt(4)`, whose
letter `q` is outside the whitelist, so evaluation yields no result. -/
theorem C4_functions_rejected_witness :
    evaluateFormula sqrtState "sqrt(Tab1.G1.Weight)" = none :=
  C4_functions_rejected sqrtState "sqrt(Tab1.G1.Weight)"
    [("Tab1.G1.Weight", "4")] (by decide) "sqrt(4)" (by decide) (by decide)
    'q' (by decide) (by decide) (by decide)

/-! ## C10: what `collect_values` includes and what `save_protocol` drops -/

/-- C10 (confirmed): `collect_values` returns an entry for every binding
that is not both hidden-by-default and currently invisible, mapping its
field id to its current string — the empty string included; a skipped
binding's id does not appear at all (with distinct ids); and the
persistence layer is where blanks disappear: a collected pair survives
`save_protocol`'s filter iff its value is non-blank after `strip()`. -/
theorem C10_collect_semantics (s : EngState) (i : Nat) (h : i < s.fields.length) :
    (¬ ((s.fields.get ⟨i, h⟩).meta.is_hidden ∧
        ¬ (s.fields.get ⟨i, h⟩).containerVisible) →
      ((s.fields.get ⟨i, h⟩).meta.id, (s.fields.get ⟨i, h⟩).getStr) ∈
        collectValues s) ∧
    ((s.fields.get ⟨i, h⟩).meta.is_hidden ∧
        ¬ (s.fields.get ⟨i, h⟩).containerVisible → NodupIds s →
      ∀ v, ((s.fields.get ⟨i, h⟩).meta.id, v) ∉ collectValues s) ∧
    (∀ fid v, (fid, v) ∈ collectValues s →
      ((fid, v) ∈ savedPairs (collectValues s) ↔ ¬ (pyStrip v).isEmpty)) := by
  refine ⟨?_, ?_, ?_⟩
  · intro hskip
    unfold collectValues
    refine List.mem_filterMap.mpr ⟨s.fields.get ⟨i, h⟩, List.get_mem _ i h, ?_⟩
    rw [if_neg hskip]
  · intro hskip hnd v hmem
    unfold collectValues at hmem
    obtain ⟨b2, hb2mem, hb2⟩ := List.mem_filterMap.mp hmem
    by_cases hc : b2.meta.is_hidden ∧ ¬ b2.containerVisible
    · rw [if_pos hc] at hb2
      exact Option.noConfusion hb2
    · rw [if_neg hc] at hb2
      have hide : b2.meta.id = (s.fields.get ⟨i, h⟩).meta.id := by
        have := Option.some.inj hb2
        exact congrArg Prod.fst this
      have hbmem : s.fields.get ⟨i, h⟩ ∈ s.fields := List.get_mem _ i h
      have : b2 = s.fields.get ⟨i, h⟩ :=
        List.inj_on_of_nodup_map hnd hb2mem hbmem hide
      rw [this] at hc
      exact hc hskip
  · intro fid v hmem
    unfold savedPairs
    constructor
    · intro hs
      have := List.of_mem_filter hs
      simpa using this
    · intro hv
      exact List.mem_filter.mpr ⟨hmem, by simpa using hv⟩

/-- Witness for `C10_collect_semantics` on the trigger structure's initial
state: the visible choice field appears in the collected map with its blank
value, the hidden (invisible) field does not appear at all, and the blank
entry is dropped by the save filter. -/
theorem C10_collect_semantics_witness :
    ((1 : Nat), "") ∈ collectValues (buildState "муж" trigStruct) ∧
    (∀ v, ((2 : Nat), v) ∉ collectValues (buildState "муж" trigStruct)) ∧
    ((1 : Nat), "") ∉ savedPairs (collectValues (buildState "муж" trigStruct)) := by
  have h0 := C10_collect_semantics (buildState "муж" trigStruct) 0 (by decide)
  have h1 := C10_collect_semantics (buildState "муж" trigStruct) 1 (by decide)
  refine ⟨?_, ?_, ?_⟩
  · have := h0.1 (by decide)
    simpa using this
  · intro v
    have := h1.2.1 (by decide) (by unfold NodupIds; decide) v
    simpa using this
  · intro hs
    have hmem : ((1 : Nat), "") ∈ collectValues (buildState "муж" trigStruct) := by
      have := h0.1 (by decide)
      simpa using this
    have := (h0.2.2 1 "" hmem).mp hs
    simp only [pyStrip, pyStripList] at this
    exact this (by decide)

/-! ## Decimal rendering facts

`natToDigits`/`digitsToNat` round-trip, the rendered characters are digits,
and the fixed-point format parses back to the exact rounded fraction. -/

theorem digitsToNat_append_single (l : List Char) (c : Char) :
    digitsToNat (l ++ [c]) = digitsToNat l * 10 + (c.toNat - 48) := by
  unfold digitsToNat
  rw [List.foldl_append]
  rfl

theorem char_ofNat_digit_toNat (k : Nat) (hk : k < 10) :
    (Char.ofNat (48 + k)).toNat = 48 + k := by
  interval_cases k <;> decide

theorem digitsToNat_natDigitsAux (fuel : Nat) : ∀ n : Nat, n < fuel →
    digitsToNat (natDigitsAux fuel n) = n := by
  induction fuel with
  | zero => intro n h; omega
  | succ fuel ih =>
    intro n h
    unfold natDigitsAux
    by_cases h10 : n < 10
    · rw [if_pos h10]
      show digitsToNat ([] ++ [Char.ofNat (48 + n)]) = n
      rw [digitsToNat_append_single]
      rw [char_ofNat_digit_toNat n h10]
      simp [digitsToNat]
    · rw [if_neg h10]
      rw [digitsToNat_append_single]
      rw [ih (n / 10) (by omega)]
      rw [char_ofNat_digit_toNat (n % 10) (by omega)]
      omega

theorem digitsToNat_natToDigits (n : Nat) : digitsToNat (natToDigits n) = n :=
  digitsToNat_natDigitsAux (n + 1) n (by omega)

theorem natDigitsAux_digits (fuel : Nat) : ∀ n : Nat, ∀ c ∈ natDigitsAux fuel n,
    isDigitChar c = true := by
  induction fuel with
  | zero => intro n c hc; simp [natDigitsAux] at hc
  | succ fuel ih =>
    intro n c hc
    unfold natDigitsAux at hc
    by_cases h10 : n < 10
    · rw [if_pos h10] at hc
      simp only [List.mem_singleton] at hc
      subst hc
      have : n < 10 := h10
      interval_cases n <;> decide
    · rw [if_neg h10] at hc
      rcases List.mem_append.mp hc with h | h
      · exact ih (n / 10) c h
      · simp only [List.mem_singleton] at h
        subst h
        have hm : n % 10 < 10 := by omega
        interval_cases hh : n % 10 <;> decide

theorem natToDigits_digits (n : Nat) : ∀ c ∈ natToDigits n, isDigitChar c = true :=
  natDigitsAux_digits (n + 1) n

theorem natDigitsAux_ne_nil (fuel n : Nat) (h : 0 < fuel) :
    natDigitsAux fuel n ≠ [] := by
  cases fuel with
  | zero => omega
  | succ fuel =>
    unfold natDigitsAux
    by_cases h10 : n < 10
    · rw [if_pos h10]; simp
    · rw [if_neg h10]; simp

theorem natToDigits_ne_nil (n : Nat) : natToDigits n ≠ [] :=
  natDigitsAux_ne_nil (n + 1) n (by omega)

theorem natDigitsAux_length (fuel : Nat) : ∀ n p : Nat, n < 10 ^ p → 1 ≤ p →
    (natDigitsAux fuel n).length ≤ p := by
  induction fuel with
  | zero => intro n p _ _; simp [natDigitsAux]
  | succ fuel ih =>
    intro n p hn hp
    unfold natDigitsAux
    by_cases h10 : n < 10
    · rw [if_pos h10]; simpa using hp
    · rw [if_neg h10]
      have hp2 : 2 ≤ p := by
        by_contra hlt
        have : p = 1 := by omega
        subst this
        simp at hn
        omega
      have hdiv : n / 10 < 10 ^ (p - 1) := by
        rw [Nat.div_lt_iff_lt_mul (by omega)]
        have : 10 ^ (p - 1) * 10 = 10 ^ p := by
          rw [← pow_succ]
          congr 1
          omega
        omega
      have := ih (n / 10) (p - 1) hdiv (by omega)
      simp only [List.length_append, List.length_singleton]
      omega

theorem digitsToNat_padZeros (w : Nat) (l : List Char) :
    digitsToNat (padZeros w l) = digitsToNat l := by
  unfold padZeros digitsToNat
  rw [List.foldl_append]
  have : ∀ k, List.foldl (fun acc c => acc * 10 + (c.toNat - 48)) 0
      (List.replicate k '0') = 0 := by
    intro k
    induction k with
    | zero => rfl
    | succ k ihk =>
      rw [List.replicate_succ, List.foldl_cons]
      simpa using ihk
  rw [this]

theorem padZeros_digits (w : Nat) (l : List Char) (hl : ∀ c ∈ l, isDigitChar c = true) :
    ∀ c ∈ padZeros w l, isDigitChar c = true := by
  intro c hc
  rcases List.mem_append.mp hc with h | h
  · rw [List.eq_of_mem_replicate h]; decide
  · exact hl c h

theorem padZeros_length (w : Nat) (l : List Char) (h : l.length ≤ w) :
    (padZeros w l).length = w := by
  unfold padZeros
  simp only [List.length_append, List.length_replicate]
  omega

theorem takeWhile_append_all (p : Char → Bool) (l r : List Char)
    (hl : ∀ c ∈ l, p c = true) :
    (l ++ r).takeWhile p = l ++ r.takeWhile p ∧ (l ++ r).dropWhile p = r.dropWhile p := by
  induction l with
  | nil => simp
  | cons c t ih =>
    have hc : p c = true := hl c (List.mem_cons_self c t)
    have iht := ih (fun c2 h2 => hl c2 (List.mem_cons_of_mem c h2))
    constructor
    · simp only [List.cons_append, List.takeWhile_cons, hc, if_true]
      rw [iht.1]
    · simp only [List.cons_append, List.dropWhile_cons, hc, if_true]
      exact iht.2

theorem dropWhile_id_of_all (p : Char → Bool) (l : List Char)
    (h : ∀ c ∈ l, p c = false) : l.dropWhile p = l := by
  cases l with
  | nil => rfl
  | cons c t =>
    have : p c = false := h c (List.mem_cons_self c t)
    simp [List.dropWhile_cons, this]

/-- `str.strip()` is the identity on whitespace-free text. -/
theorem pyStrip_id_of_no_space (s : String) (h : ∀ c ∈ s.data, pyIsSpace c = false) :
    pyStrip s = s := by
  unfold pyStrip pyStripList
  rw [dropWhile_id_of_all _ _ h]
  rw [dropWhile_id_of_all _ _ (fun c hc => h c (List.mem_reverse.mp hc))]
  rw [List.reverse_reverse]

/-- A single-character `str.replace` is a character map. -/
theorem pyReplaceList_single_map (p r : Char) : ∀ (fuel : Nat) (cs : List Char),
    cs.length ≤ fuel →
    pyReplaceList fuel [p] [r] cs = cs.map (fun c => if c = p then r else c) := by
  intro fuel
  induction fuel with
  | zero =>
    intro cs h
    have : cs = [] := List.length_eq_zero.mp (by omega)
    subst this
    rfl
  | succ fuel ih =>
    intro cs h
    cases cs with
    | nil => rfl
    | cons x rest =>
      rw [pyReplaceList_succ]
      by_cases hx : x = p
      · subst hx
        rw [if_pos ⟨by simp, by simp [List.isPrefixOf]⟩]
        have hdrop : (x :: rest).drop [x].length = rest := by simp
        rw [hdrop, ih rest (by simp only [List.length_cons] at h; omega)]
        simp
      · rw [if_neg (fun hand => by
          have h2 := hand.2
          simp only [List.isPrefixOf, Bool.and_eq_true, beq_iff_eq] at h2
          first
          | exact hx h2.symm
          | exact hx h2.1.symm)]
        rw [ih rest (by simp only [List.length_cons] at h; omega)]
        simp [hx]

theorem pyReplace_comma_point (s : String) :
    pyReplace s "," "." = String.mk (s.data.map fun c => if c = ',' then '.' else c) := by
  unfold pyReplace
  rw [pyReplaceList_single_map ',' '.' s.data.length s.data (le_refl _)]

theorem pyReplace_point_comma (s : String) :
    pyReplace s "." "," = String.mk (s.data.map fun c => if c = '.' then ',' else c) := by
  unfold pyReplace
  rw [pyReplaceList_single_map '.' ',' s.data.length s.data (le_refl _)]

/-- Turning points into commas and back is the identity on comma-free
text. -/
theorem comma_point_roundtrip (s : String) (h : ∀ c ∈ s.data, c ≠ ',') :
    pyReplace (pyReplace s "." ",") "," "." = s := by
  rw [pyReplace_point_comma, pyReplace_comma_point]
  show String.mk ((s.data.map _).map _) = s
  rw [List.map_map]
  have : ∀ c ∈ s.data,
      ((fun c => if c = ',' then '.' else c) ∘ fun c => if c = '.' then ',' else c) c
        = c := by
    intro c hc
    by_cases hp : c = '.'
    · simp [hp, Function.comp]
    · simp [Function.comp, hp, h c hc]
  rw [List.map_congr_left this, List.map_id']

/-- Every character the fixed-point format emits is a digit, a minus sign
or a point. -/
theorem formatFixed_chars (q : PyFloat) (p : Nat) :
    ∀ c ∈ (formatFixed q p).data, isDigitChar c = true ∨ c = '-' ∨ c = '.' := by
  intro c hc
  unfold formatFixed at hc
  have hsign : ∀ c2 ∈ (if roundHalfEven (q.mulPow10 p) < 0 then "-" else "").data,
      c2 = '-' := by
    intro c2 h2
    split at h2
    · simpa using h2
    · simp at h2
  by_cases hp : p = 0
  · rw [if_pos hp] at hc
    rcases List.mem_append.mp hc with h2 | h2
    · exact Or.inr (Or.inl (hsign c h2))
    · exact Or.inl (natToDigits_digits _ c h2)
  · rw [if_neg hp] at hc
    rcases List.mem_append.mp hc with h2 | h2
    · rcases List.mem_append.mp h2 with h3 | h3
      · rcases List.mem_append.mp h3 with h4 | h4
        · exact Or.inr (Or.inl (hsign c h4))
        · exact Or.inl (natToDigits_digits _ c h4)
      · replace h3 : c ∈ ['.'] := h3
        simp at h3
        exact Or.inr (Or.inr h3)
    · exact Or.inl (padZeros_digits _ _ (natToDigits_digits _) c h2)

theorem digit_not_space (c : Char) (h : isDigitChar c = true) : pyIsSpace c = false := by
  cases hsp : pyIsSpace c
  · rfl
  · exfalso
    unfold pyIsSpace at hsp
    simp only [Bool.or_eq_true, decide_eq_true_eq] at hsp
    have hd : c = ' ' ∨ c = '\t' ∨ c = '\n' ∨ c = '\r' ∨ c = '\x0b' ∨ c = '\x0c' := by
      tauto
    rcases hd with h1 | h1 | h1 | h1 | h1 | h1 <;> (subst h1; exact absurd h (by decide))

theorem digit_ne_comma (c : Char) (h : isDigitChar c = true) : c ≠ ',' := by
  intro he
  subst he
  exact absurd h (by decide)

/-- The characters of a fixed-point rendering are never whitespace. -/
theorem formatFixed_no_space (q : PyFloat) (p : Nat) :
    ∀ c ∈ (formatFixed q p).data, pyIsSpace c = false := by
  intro c hc
  rcases formatFixed_chars q p c hc with h | h | h
  · exact digit_not_space c h
  · subst h; decide
  · subst h; decide

/-- The characters of a fixed-point rendering are never commas. -/
theorem formatFixed_no_comma (q : PyFloat) (p : Nat) :
    ∀ c ∈ (formatFixed q p).data, c ≠ ',' := by
  intro c hc
  rcases formatFixed_chars q p c hc with h | h | h
  · exact digit_ne_comma c h
  · subst h; decide
  · subst h; decide

/-- Rounding an exact multiple is exact. -/
theorem roundHalfEven_exact (k d : Int) (hd : 0 < d) :
    roundHalfEven ⟨k * d, d⟩ = k := by
  unfold roundHalfEven PyFloat.floorI
  simp only
  rw [Int.mul_fdiv_cancel k (by omega)]
  have : 2 * (k * d - k * d) = 0 := by ring
  rw [this]
  rw [if_pos hd]

/-- `round(x, p)` is the identity on values that are exact multiples of
`10 ^ (-p)`. -/
theorem roundPrec_exact (n : Int) (p : Nat) :
    roundPrec ⟨n, 10 ^ p⟩ p = ⟨n, 10 ^ p⟩ := by
  unfold roundPrec PyFloat.mulPow10
  simp only
  rw [roundHalfEven_exact n (10 ^ p) (by positivity)]

theorem formatFixed_congr (q1 q2 : PyFloat) (p : Nat)
    (h : roundHalfEven (q1.mulPow10 p) = roundHalfEven (q2.mulPow10 p)) :
    formatFixed q1 p = formatFixed q2 p := by
  unfold formatFixed
  rw [h]

theorem digit_ne_signs (c : Char) (h : isDigitChar c = true) :
    c ≠ '+' ∧ c ≠ '-' ∧ c ≠ '.' := by
  refine ⟨?_, ?_, ?_⟩ <;> (intro he; subst he; exact absurd h (by decide))

theorem takeWhile_all (p : Char → Bool) (l : List Char) (h : ∀ c ∈ l, p c = true) :
    l.takeWhile p = l ∧ l.dropWhile p = [] := by
  have := takeWhile_append_all p l [] h
  simpa using this

theorem parseSign_minus (rest : List Char) : parseSign ('-' :: rest) = (-1, rest) := by
  show (if ('-' : Char) = '+' then ((1 : Int), rest)
    else if ('-' : Char) = '-' then ((-1 : Int), rest)
    else ((1 : Int), '-' :: rest)) = ((-1 : Int), rest)
  rw [if_neg (by decide), if_pos rfl]

theorem parseSign_digit (c : Char) (rest : List Char) (h : isDigitChar c = true) :
    parseSign (c :: rest) = (1, c :: rest) := by
  show (if c = '+' then ((1 : Int), rest)
    else if c = '-' then ((-1 : Int), rest)
    else ((1 : Int), c :: rest)) = ((1 : Int), c :: rest)
  rw [if_neg (digit_ne_signs c h).1, if_neg (digit_ne_signs c h).2.1]

theorem parseFrac_point (rest : List Char) :
    parseFrac ('.' :: rest) = (rest.takeWhile isDigitChar, rest.dropWhile isDigitChar) := by
  show (if ('.' : Char) = '.' then (rest.takeWhile isDigitChar, rest.dropWhile isDigitChar)
    else (([] : List Char), '.' :: rest))
      = (rest.takeWhile isDigitChar, rest.dropWhile isDigitChar)
  rw [if_pos rfl]

theorem parseFrac_nil : parseFrac [] = ([], []) := rfl

theorem parseExpPart_nil (m : PyFloat) : parseExpPart m [] = some m := rfl

/-- The integer-and-fraction digits of a rendering reassemble into the
rounded numerator. -/
theorem digits_recompose (n : Int) (p : Nat) :
    ((n.natAbs / 10 ^ p : Nat) : Int) * 10 ^ p + ((n.natAbs % 10 ^ p : Nat) : Int)
      = (n.natAbs : Int) := by
  exact_mod_cast Nat.div_add_mod' n.natAbs (10 ^ p)

/-- Parsing a fixed-point rendering recovers the exact rounded fraction. -/
theorem pyFloatParse_formatFixed (q : PyFloat) (p : Nat) :
    pyFloatParse (formatFixed q p) =
      some ⟨roundHalfEven (q.mulPow10 p), 10 ^ p⟩ := by
  have hstrip : pyStripList (formatFixed q p).data = (formatFixed q p).data := by
    have h1 := dropWhile_id_of_all pyIsSpace (formatFixed q p).data
      (formatFixed_no_space q p)
    unfold pyStripList
    rw [h1]
    rw [dropWhile_id_of_all _ _
      (fun c hc => formatFixed_no_space q p c (List.mem_reverse.mp hc))]
    rw [List.reverse_reverse]
  set n : Int := roundHalfEven (q.mulPow10 p) with hn
  set ip : List Char := natToDigits (n.natAbs / 10 ^ p) with hipdef
  set fp : List Char := padZeros p (natToDigits (n.natAbs % 10 ^ p)) with hfpdef
  have hipd : ∀ c ∈ ip, isDigitChar c = true := natToDigits_digits _
  have hfpd : ∀ c ∈ fp, isDigitChar c = true :=
    padZeros_digits p _ (natToDigits_digits _)
  have hipval : digitsToNat ip = n.natAbs / 10 ^ p := digitsToNat_natToDigits _
  have hfpval : digitsToNat fp = n.natAbs % 10 ^ p := by
    rw [hfpdef, digitsToNat_padZeros, digitsToNat_natToDigits]
  have hipne : ip ≠ [] := natToDigits_ne_nil _
  obtain ⟨c0, ip2, hip2⟩ : ∃ c0 ip2, ip = c0 :: ip2 := by
    cases hi : ip with
    | nil => exact absurd hi hipne
    | cons a b => exact ⟨a, b, rfl⟩
  have hc0 : isDigitChar c0 = true := hipd c0 (by rw [hip2]; exact List.mem_cons_self _ _)
  obtain ⟨htw, hdw⟩ := takeWhile_all isDigitChar ip hipd
  by_cases hp : p = 0
  · -- no decimal point
    subst hp
    have hdata : (formatFixed q 0).data =
        (if n < 0 then "-" else "").data ++ ip := by
      unfold formatFixed
      rw [← hn, if_pos rfl]
      rfl
    have hrecomp : (digitsToNat ip : Int) * 10 ^ (0 : Nat) + 0 = (n.natAbs : Int) := by
      rw [hipval]
      simp only [pow_zero, mul_one, add_zero]
      omega
    by_cases hneg : n < 0
    · have hd2 : (formatFixed q 0).data = '-' :: ip := by
        rw [hdata, if_pos hneg]
        rfl
      rw [hd2] at hstrip
      unfold pyFloatParse
      rw [hd2, hstrip]
      simp only [parseSign_minus, htw, hdw, parseFrac_nil]
      rw [if_neg (by simp [hipne])]
      simp only [List.length_nil, parseExpPart_nil]
      congr 1
      show PyFloat.mk (-1 * ((digitsToNat ip : Int) * 10 ^ (0 : Nat) + 0)) (10 ^ (0 : Nat)) =
        PyFloat.mk n (10 ^ (0 : Nat))
      rw [hrecomp]
      congr 1
      omega
    · have hd2 : (formatFixed q 0).data = c0 :: ip2 := by
        rw [hdata, if_neg hneg, hip2]
        rfl
      rw [hd2] at hstrip
      unfold pyFloatParse
      rw [hd2, hstrip]
      simp only [parseSign_digit c0 ip2 hc0]
      rw [← hip2]
      simp only [htw, hdw, parseFrac_nil]
      rw [if_neg (by simp [hipne])]
      simp only [List.length_nil, parseExpPart_nil]
      congr 1
      show PyFloat.mk (1 * ((digitsToNat ip : Int) * 10 ^ (0 : Nat) + 0)) (10 ^ (0 : Nat)) =
        PyFloat.mk n (10 ^ (0 : Nat))
      rw [hrecomp]
      congr 1
      omega
  · -- with decimal point and exactly p fraction digits
    have hfplen : fp.length = p := by
      rw [hfpdef]
      refine padZeros_length p _ ?_
      refine natDigitsAux_length _ _ p ?_ (by omega)
      exact Nat.mod_lt _ (by positivity)
    have hdata : (formatFixed q p).data =
        (if n < 0 then "-" else "").data ++ (ip ++ '.' :: fp) := by
      unfold formatFixed
      rw [← hn, if_neg hp]
      show ((if n < 0 then "-" else "").data ++ ip ++ ['.'] ++ fp) = _
      simp [List.append_assoc]
    obtain ⟨htw2, hdw2⟩ := takeWhile_append_all isDigitChar ip ('.' :: fp) hipd
    have hdot : isDigitChar '.' = false := by decide
    have htw3 : (ip ++ '.' :: fp).takeWhile isDigitChar = ip := by
      rw [htw2, List.takeWhile_cons, hdot]
      simp
    have hdw3 : (ip ++ '.' :: fp).dropWhile isDigitChar = '.' :: fp := by
      rw [hdw2, List.dropWhile_cons, hdot]
      simp
    obtain ⟨ftw, fdw⟩ := takeWhile_all isDigitChar fp hfpd
    have hrecomp : (digitsToNat ip : Int) * 10 ^ p + (digitsToNat fp : Int)
        = (n.natAbs : Int) := by
      rw [hipval, hfpval]
      exact digits_recompose n p
    by_cases hneg : n < 0
    · have hd2 : (formatFixed q p).data = '-' :: (ip ++ '.' :: fp) := by
        rw [hdata, if_pos hneg]
        rfl
      rw [hd2] at hstrip
      unfold pyFloatParse
      rw [hd2, hstrip]
      simp only [parseSign_minus, htw3, hdw3, parseFrac_point, ftw, fdw]
      rw [if_neg (by simp [hipne])]
      simp only [parseExpPart_nil]
      congr 1
      show PyFloat.mk (-1 * ((digitsToNat ip : Int) * 10 ^ fp.length + digitsToNat fp))
          (10 ^ fp.length) = PyFloat.mk n (10 ^ p)
      rw [hfplen, hrecomp]
      congr 1
      omega
    · have hd2 : (formatFixed q p).data = c0 :: (ip2 ++ '.' :: fp) := by
        rw [hdata, if_neg hneg, hip2]
        rfl
      rw [hd2] at hstrip
      unfold pyFloatParse
      rw [hd2, hstrip]
      have hcons : c0 :: (ip2 ++ '.' :: fp) = ip ++ '.' :: fp := by
        rw [hip2]
        rfl
      simp only [parseSign_digit c0 (ip2 ++ '.' :: fp) hc0]
      rw [hcons]
      simp only [htw3, hdw3, parseFrac_point, ftw, fdw]
      rw [if_neg (by simp [hipne])]
      simp only [parseExpPart_nil]
      congr 1
      show PyFloat.mk (1 * ((digitsToNat ip : Int) * 10 ^ fp.length + digitsToNat fp))
          (10 ^ fp.length) = PyFloat.mk n (10 ^ p)
      rw [hfplen, hrecomp]
      congr 1
      omega

/-! ## C7: range flagging -/

/-- `mapBinding` at the id of a found binding maps exactly that binding. -/
theorem findBinding_mapBinding_self {s : EngState} {fid : Nat} {b : Binding}
    (hb : s.findBinding fid = some b) (f : Binding → Binding)
    (hf : ∀ b2, (f b2).meta.id = b2.meta.id) :
    (s.mapBinding fid f).findBinding fid = some (f b) := by
  unfold EngState.mapBinding
  rw [findBinding_fieldsMap]
  · rw [hb]
    have hid : b.meta.id = fid := by
      have := List.find?_some hb
      simpa using this
    simp [hid]
  · intro b2
    by_cases h : b2.meta.id = fid <;> simp [h, hf]

/-- `round(x, p)` always yields a positive denominator. -/
theorem wf_roundPrec (q : PyFloat) (p : Nat) : (roundPrec q p).wf := by
  unfold roundPrec PyFloat.wf
  positivity

/-- The exponent-suffix parser preserves denominator positivity. -/
theorem parseExpPart_wf (m : PyFloat) (cs : List Char) (q : PyFloat)
    (hm : m.wf) (h : parseExpPart m cs = some q) : q.wf := by
  unfold parseExpPart at h
  split at h
  · obtain rfl := Option.some.inj h
    exact hm
  · split at h
    · simp only at h
      split at h
      · exact absurd h (by simp)
      · split at h
        · obtain rfl := Option.some.inj h
          unfold PyFloat.mulPow10 PyFloat.wf
          exact hm
        · obtain rfl := Option.some.inj h
          unfold PyFloat.wf at *
          simp only
          positivity
    · exact absurd h (by simp)

/-- `float()` always yields a positive denominator. -/
theorem pyFloatParse_wf (s : String) (q : PyFloat) (h : pyFloatParse s = some q) :
    q.wf := by
  unfold pyFloatParse at h
  simp only at h
  split at h
  · exact absurd h (by simp)
  · refine parseExpPart_wf _ _ _ ?_ h
    unfold PyFloat.wf
    simp only
    positivity

/-- The rounded comparison value has a positive denominator whenever the
parsed one does. -/
theorem wf_checkedVal (m : FieldMeta) (val0 : PyFloat) (h : val0.wf) :
    (checkedVal m val0).wf := by
  unfold checkedVal
  cases m.precision with
  | none => exact h
  | some p => exact wf_roundPrec _ _

/-- On positive denominators, the model comparison agrees with the rational
order. -/
theorem ble_toRat (a b : PyFloat) (ha : a.wf) (hb : b.wf) :
    (a.ble b = true) ↔ a.toRat ≤ b.toRat := by
  unfold PyFloat.ble PyFloat.toRat PyFloat.wf at *
  rw [decide_eq_true_eq]
  rw [div_le_div_iff₀ (by exact_mod_cast ha) (by exact_mod_cast hb)]
  constructor
  · intro h
    exact_mod_cast h
  · intro h
    exact_mod_cast h

/-- Rewrite-friendly same-id form of `findBinding_mapBinding_self` for the
meta-preserving record updates the engine performs. -/
theorem findBinding_mapBinding_wf_self {s : EngState} {fid : Nat} {b : Binding}
    (hb : s.findBinding fid = some b) (g : Binding → Widget) (h : Binding → Bool) :
    (s.mapBinding fid (fun b2 =>
      { meta := b2.meta, widget := g b2, containerVisible := b2.containerVisible
        labelVisible := b2.labelVisible, flagged := h b2 })).findBinding fid =
      some { meta := b.meta, widget := g b, containerVisible := b.containerVisible
             labelVisible := b.labelVisible, flagged := h b } :=
  findBinding_mapBinding_self hb
    (fun b2 => { meta := b2.meta, widget := g b2, containerVisible := b2.containerVisible
                 labelVisible := b2.labelVisible, flagged := h b2 })
    (fun _ => rfl)

/-- C7 (corrected): for a number/formula field, `_check_reference` clears
the flag on a blank (stripped) value and leaves the widget untouched; on a
parsable value with both gender-range bounds present it flags the field iff
the *rounded-to-precision* value — not the raw parsed value — lies strictly
outside `[min, max]`; when either bound is absent the flag is left
unchanged (and since only this active-range branch ever raises it, such a
field is never flagged).  The claim as literally stated — comparing the
unrounded parsed value — is refuted by `C7_counterexample`. -/
theorem C7_range_flagging (s : EngState) (fid : Nat) (b : Binding)
    (hb : s.findBinding fid = some b)
    (hty : b.meta.field_type = "число" ∨ b.meta.field_type = "формула") :
    (pyStrip b.getStr = "" →
      ((checkReference s fid).findBinding fid).map (fun b2 => (b2.widget, b2.flagged))
        = some (b.widget, false)) ∧
    (∀ val0 lo hi, pyStrip b.getStr ≠ "" →
      pyFloatParse (pyReplace (pyStrip b.getStr) "," ".") = some val0 →
      currentRefRange s.gender b.meta = (some lo, some hi) →
      lo.wf → hi.wf →
      ((checkReference s fid).findBinding fid).map (fun b2 => b2.flagged)
        = some (decide ((checkedVal b.meta val0).toRat < lo.toRat ∨
            hi.toRat < (checkedVal b.meta val0).toRat))) ∧
    (∀ val0, pyStrip b.getStr ≠ "" →
      pyFloatParse (pyReplace (pyStrip b.getStr) "," ".") = some val0 →
      (∀ lo hi, currentRefRange s.gender b.meta ≠ (some lo, some hi)) →
      ((checkReference s fid).findBinding fid).map (fun b2 => b2.flagged)
        = some b.flagged) := by
  have htyif : ¬ (b.meta.field_type ≠ "число" ∧ b.meta.field_type ≠ "формула") := by
    rcases hty with h | h <;> simp [h]
  refine ⟨?_, ?_, ?_⟩
  · intro hblank
    unfold checkReference
    rw [hb]
    simp only [htyif, if_false, hblank, eq_self_iff_true, if_true]
    rw [findBinding_mapBinding_wf_self hb]
    rfl
  · intro val0 lo hi hne hp hrange hlo hhi
    have hval0 : val0.wf := pyFloatParse_wf _ _ hp
    have hiff : (¬ (lo.ble (checkedVal b.meta val0) = true ∧
          (checkedVal b.meta val0).ble hi = true)) ↔
        ((checkedVal b.meta val0).toRat < lo.toRat ∨
          hi.toRat < (checkedVal b.meta val0).toRat) := by
      rw [ble_toRat lo _ hlo (wf_checkedVal _ _ hval0),
        ble_toRat _ hi (wf_checkedVal _ _ hval0) hhi]
      rw [not_and_or, not_le, not_le]
    unfold checkReference
    rw [hb]
    simp only [htyif, if_false, hne, hp, hrange]
    cases hprec : b.meta.precision with
    | none =>
      have hcv : checkedVal b.meta val0 = val0 := by
        unfold checkedVal
        rw [hprec]
      rw [hcv] at hiff ⊢
      simp only [hprec]
      rw [findBinding_mapBinding_wf_self hb]
      simp only [Option.map_some']
      congr 1
      rw [decide_eq_decide]
      exact hiff
    | some p =>
      have hcv : checkedVal b.meta val0 = roundPrec val0 p := by
        unfold checkedVal
        rw [hprec]
      rw [hcv] at hiff ⊢
      simp only [hprec]
      by_cases hle : b.widget.isLineEdit = true
      · simp only [hle, if_true]
        have hb1 := findBinding_mapBinding_wf_self hb
          (fun b2 => b2.widget.setStr (pyReplace (formatFixed (roundPrec val0 p) p) "." ","))
          (fun b2 => b2.flagged)
        rw [findBinding_mapBinding_wf_self hb1]
        simp only [Option.map_some']
        congr 1
        rw [decide_eq_decide]
        exact hiff
      · simp only [hle, Bool.false_eq_true, if_false]
        rw [findBinding_mapBinding_wf_self hb]
        simp only [Option.map_some']
        congr 1
        rw [decide_eq_decide]
        exact hiff
  · intro val0 hne hp hnone
    unfold checkReference
    rw [hb]
    simp only [htyif, if_false, hne, hp]
    cases hprec : b.meta.precision with
    | none =>
      simp only [hprec]
      rw [hb]
      rfl
    | some p =>
      simp only [hprec]
      by_cases hle : b.widget.isLineEdit = true
      · simp only [hle, if_true]
        rw [findBinding_mapBinding_wf_self hb]
        rfl
      · simp only [hle, Bool.false_eq_true, if_false]
        rw [hb]
        rfl

/-- C7 witness: on the male range `[3.0, 5.0]` with gender `муж` and value
`"6,0"`, the theorem instantiates to a raised flag. -/
theorem C7_range_flagging_witness :
    ((checkReference (rangeState "6,0") 1).findBinding 1).map (fun b2 => b2.flagged)
      = some true := by
  have hb : (rangeState "6,0").findBinding 1 = some
      { meta := metaOf 10 20 { baseField 1 "N" with
          ref_male_min := some ⟨3, 1⟩, ref_male_max := some ⟨5, 1⟩ }
        widget := Widget.lineEdit "6,0"
        containerVisible := true
        labelVisible := true
        flagged := false } := by decide
  have h := (C7_range_flagging (rangeState "6,0") 1 _ hb (Or.inl (by decide))).2.1
      ⟨60, 10⟩ ⟨3, 1⟩ ⟨5, 1⟩ (by decide) (by decide) (by decide)
      (by exact (by decide : (0 : Int) < 1)) (by exact (by decide : (0 : Int) < 1))
  rw [h]
  have hcv : checkedVal (metaOf 10 20 { baseField 1 "N" with
      ref_male_min := some ⟨3, 1⟩, ref_male_max := some ⟨5, 1⟩ }) ⟨60, 10⟩ =
      ⟨600, 100⟩ := by decide
  simp only [Option.some.injEq, decide_eq_true_eq]
  rw [hcv]
  right
  norm_num [PyFloat.toRat]

/-- C7 counterexample: male range `[3.0, 5.0]`, precision 2, value
`"5,004"`.  The parsed value `5.004` is strictly outside the range, so the
claim requires the field to be flagged; the code rounds to precision first
(`round(5.004, 2) = 5.0`), rewrites the text to `"5,00"`, and does not
flag. -/
theorem C7_counterexample :
    ((rangeState "5,004").findBinding 1).map
        (fun b => (b.meta.ref_male_min, b.meta.ref_male_max, b.meta.precision)) =
      some (some ⟨3, 1⟩, some ⟨5, 1⟩, some 2) ∧
    (rangeState "5,004").gender = "муж" ∧
    pyFloatParse (pyReplace (pyStrip "5,004") "," ".") = some ⟨5004, 1000⟩ ∧
    PyFloat.toRat ⟨5, 1⟩ < PyFloat.toRat ⟨5004, 1000⟩ ∧
    ((checkReference (rangeState "5,004") 1).findBinding 1).map
      (fun b => (b.getStr, b.flagged)) = some ("5,00", false) := by
  refine ⟨by decide, by decide, by decide, ?_, by decide⟩
  norm_num [PyFloat.toRat]

/-! ## C6: formula failure recovery -/

/-- If any reference of the list fails to resolve, the whole
value-resolution loop fails. -/
theorem buildValues_none_of_resolveRef (s : EngState) :
    ∀ (ts : List (String × String × String)) (acc : List (String × String)),
      (∃ t ∈ ts, resolveRef s t = none) → buildValues s ts acc = none := by
  intro ts
  induction ts with
  | nil =>
    intro acc h
    rcases h with ⟨t, ht, _⟩
    exact absurd ht (List.not_mem_nil t)
  | cons hd tl ih =>
    rcases hd with ⟨a, b, c⟩
    intro acc h
    simp only [buildValues]
    cases hr : resolveRef s (a, b, c) with
    | none => rfl
    | some v =>
      rcases h with ⟨t, ht, hres⟩
      rcases List.mem_cons.mp ht with rfl | htl
      · rw [hr] at hres
        exact absurd hres (Option.some_ne_none v)
      · exact ih _ ⟨t, htl, hres⟩

/-- With distinct ids, the binding at a position is what lookup by its own
id returns. -/
theorem findBinding_of_get (s : EngState) (hnd : NodupIds s) {i : Nat} {b : Binding}
    (hi : s.fields.get? i = some b) : s.findBinding b.meta.id = some b := by
  have hmem : b ∈ s.fields := List.get?_mem hi
  cases hfb : s.findBinding b.meta.id with
  | none =>
    exfalso
    have := List.find?_eq_none.mp hfb b hmem
    simp at this
  | some b2 =>
    have heq : b = b2 := findBinding_unique s hnd hfb hmem rfl
    rw [heq]

/-- C6 (confirmed): each listed failure mode — a reference whose value is
blank or which resolves neither by full path nor by bare field name, or a
disallowed character in the substituted expression — makes the evaluator
yield no result, and on any failed evaluation the recomputation step writes
the empty string into the formula field (clearing its flag) and leaves
every other binding untouched; all operations are total functions, so no
error propagates. -/
theorem C6_failure_clears (s : EngState) (i : Nat) (b : Binding) (f : String)
    (hnd : NodupIds s)
    (hi : s.fields.get? i = some b)
    (hty : b.meta.field_type = "формула")
    (hf : b.meta.formula = some f) (hfne : f ≠ "") :
    ((∃ t ∈ findTriples f, resolveRef s t = none) → evaluateFormula s f = none) ∧
    (∀ values, buildValues s (findTriples f) [] = some values →
      ¬ ((pyReplace (subOps
            (values.foldl (fun e kv => pyReplace e kv.1 kv.2) f)) "," ".").data.all
          (fun c => allowedChars.contains c) = true) →
      evaluateFormula s f = none) ∧
    (evaluateFormula s f = none →
      (recalcStep s i).findBinding b.meta.id =
        some { b with widget := b.widget.setStr "", flagged := false } ∧
      ∀ fid, fid ≠ b.meta.id →
        (recalcStep s i).findBinding fid = s.findBinding fid) := by
  refine ⟨?_, ?_, ?_⟩
  · intro hex
    unfold evaluateFormula
    rw [buildValues_none_of_resolveRef s _ _ hex]
  · intro values hbv hbad
    unfold evaluateFormula
    rw [hbv]
    simp only [hbad, Bool.false_eq_true, if_false]
  · intro heval
    have hb : s.findBinding b.meta.id = some b := findBinding_of_get s hnd hi
    constructor
    · unfold recalcStep
      rw [hi]
      simp only [hty, ne_eq, not_true_eq_false, if_false, hf, hfne, heval]
      rw [findBinding_mapBinding_wf_self hb]
    · intro fid hne
      unfold recalcStep
      rw [hi]
      simp only [hty, ne_eq, not_true_eq_false, if_false, hf, hfne, heval]
      rw [findBinding_mapBinding_wf_ne _ _ hne]

/-- C6 witness: the BMI formula with `Height` blank — its reference
`Tab1.G1.Height` resolves to a blank value — is cleared by the
recomputation step, and the `Weight` binding is untouched. -/
theorem C6_failure_clears_witness :
    (recalcStep bmiStateBlank 2).findBinding
        (initBinding 10 20 bmiField).meta.id =
      some { initBinding 10 20 bmiField with
        widget := (initBinding 10 20 bmiField).widget.setStr ""
        flagged := false } ∧
    (recalcStep bmiStateBlank 2).findBinding 1 = bmiStateBlank.findBinding 1 := by
  have h := C6_failure_clears bmiStateBlank 2 (initBinding 10 20 bmiField)
      "Tab1.G1.Weight / (Tab1.G1.Height * Tab1.G1.Height)"
      (by unfold NodupIds; decide) (by decide) (by decide) (by decide) (by decide)
  have hex : ∃ t ∈ findTriples "Tab1.G1.Weight / (Tab1.G1.Height * Tab1.G1.Height)",
      resolveRef bmiStateBlank t = none :=
    ⟨("Tab1", "G1", "Height "), by decide, by decide⟩
  have hc := h.2.2 (h.1 hex)
  exact ⟨hc.1, hc.2 1 (by decide)⟩

/-! ## C9 machinery: widget and `mapBinding` algebra -/

/-- Writing the same string twice is one write. -/
theorem setStr_idem (w : Widget) (a : String) :
    (w.setStr a).setStr a = w.setStr a := by
  cases w with
  | lineEdit t => rfl
  | plainText t => rfl
  | comboTemplate items ct area => rfl
  | comboBox items t => rfl
  | comboMulti items et =>
    simp only [Widget.setStr]
    congr 1
    rw [List.map_map]
    apply List.map_congr_left
    intro it _
    rfl
  | dateEdit d =>
    simp only [Widget.setStr]
    cases hp : parseDate a with
    | none => simp [hp]
    | some d2 => simp [hp]
  | timeEdit t =>
    simp only [Widget.setStr]
    cases hp : parseTime a with
    | none => simp [hp]
    | some t2 => simp [hp]

/-- `mapBinding` only looks at its function on same-id members. -/
theorem mapBinding_congr (s : EngState) (fid : Nat) (f g : Binding → Binding)
    (h : ∀ x ∈ s.fields, x.meta.id = fid → f x = g x) :
    s.mapBinding fid f = s.mapBinding fid g := by
  unfold EngState.mapBinding
  congr 1
  apply List.map_congr_left
  intro x hx
  by_cases hid : x.meta.id = fid
  · simp [hid, h x hx hid]
  · simp [hid]

/-- A `mapBinding` whose function fixes every same-id member is the
identity. -/
theorem mapBinding_id (s : EngState) (fid : Nat) (f : Binding → Binding)
    (h : ∀ x ∈ s.fields, x.meta.id = fid → f x = x) :
    s.mapBinding fid f = s := by
  unfold EngState.mapBinding
  have : s.fields.map (fun b => if b.meta.id = fid then f b else b) = s.fields := by
    rw [show s.fields = s.fields.map id by simp]
    rw [List.map_map]
    apply List.map_congr_left
    intro x hx
    by_cases hid : x.meta.id = fid
    · simp [hid, h x (by simpa using hx) hid]
    · simp [hid]
  rw [this]

/-- Two updates at the same id fuse (inner update id-preserving). -/
theorem mapBinding_comp (s : EngState) (fid : Nat) (f g : Binding → Binding)
    (hg : ∀ b, (g b).meta.id = b.meta.id) :
    (s.mapBinding fid g).mapBinding fid f = s.mapBinding fid (fun b => f (g b)) := by
  unfold EngState.mapBinding
  simp only [List.map_map]
  congr 1
  apply List.map_congr_left
  intro x _
  by_cases hid : x.meta.id = fid
  · simp [Function.comp, hid, hg]
  · simp [Function.comp, hid]

/-- Updates at distinct ids commute (both id-preserving). -/
theorem mapBinding_comm (s : EngState) (fid1 fid2 : Nat) (hne : fid1 ≠ fid2)
    (f g : Binding → Binding)
    (hf : ∀ b, (f b).meta.id = b.meta.id) (hg : ∀ b, (g b).meta.id = b.meta.id) :
    (s.mapBinding fid2 g).mapBinding fid1 f =
      (s.mapBinding fid1 f).mapBinding fid2 g := by
  unfold EngState.mapBinding
  simp only [List.map_map]
  congr 1
  apply List.map_congr_left
  intro x _
  by_cases h1 : x.meta.id = fid1
  · have h2 : ¬ x.meta.id = fid2 := by rw [h1]; exact hne
    simp [Function.comp, h1, h2, hf, hg, hne, hne.symm]
  · by_cases h2 : x.meta.id = fid2
    · simp [Function.comp, h1, h2, hf, hg, hne, hne.symm]
    · simp [Function.comp, h1, h2]

/-- Position access through a `mapBinding`. -/
theorem get?_mapBinding (s : EngState) (fid : Nat) (f : Binding → Binding) (i : Nat) :
    (s.mapBinding fid f).fields.get? i =
      (s.fields.get? i).map (fun x => if x.meta.id = fid then f x else x) := by
  unfold EngState.mapBinding
  simp [List.getElem?_map, List.get?_eq_getElem?]

/-- `chk` never changes the meta. -/
theorem chk_meta (g : String) (b : Binding) : (chk g b).meta = b.meta := by
  unfold chk
  repeat' first
  | split
  | simp only []

/-- `chk` never changes the visibility flags. -/
theorem chk_vis (g : String) (b : Binding) :
    (chk g b).containerVisible = b.containerVisible ∧
    (chk g b).labelVisible = b.labelVisible := by
  unfold chk
  repeat' first
  | split
  | simp only []
  all_goals simp

/-- `procFormula` never changes the meta. -/
theorem procFormula_meta (g : String) (r : Option PyFloat) (b : Binding) :
    (procFormula g r b).meta = b.meta := by
  unfold procFormula
  split
  · rfl
  · simp only []
    rw [chk_meta]

/-- `procFormula` never changes the visibility flags. -/
theorem procFormula_vis (g : String) (r : Option PyFloat) (b : Binding) :
    (procFormula g r b).containerVisible = b.containerVisible ∧
    (procFormula g r b).labelVisible = b.labelVisible := by
  unfold procFormula
  split
  · exact ⟨rfl, rfl⟩
  · simp only []
    exact chk_vis g _

/-- `mapBinding` leaves the gender untouched. -/
theorem mapBinding_gender (s : EngState) (fid : Nat) (f : Binding → Binding) :
    (s.mapBinding fid f).gender = s.gender := rfl

/-- `_check_reference` is the by-id update with `chk` (ids distinct). -/
theorem checkReference_eq_mapBinding (s : EngState) (fid : Nat) (b : Binding)
    (hnd : NodupIds s) (hb : s.findBinding fid = some b) :
    checkReference s fid = s.mapBinding fid (chk s.gender) := by
  have huniq : ∀ x ∈ s.fields, x.meta.id = fid → x = b :=
    fun x hx hid => findBinding_unique s hnd hb hx hid
  unfold checkReference
  rw [hb]
  simp only []
  by_cases hty : b.meta.field_type ≠ "число" ∧ b.meta.field_type ≠ "формула"
  · rw [if_pos hty]
    symm
    apply mapBinding_id
    intro x hx hid
    rw [huniq x hx hid]
    unfold chk
    rw [if_pos hty]
  · rw [if_neg hty]
    by_cases hblank : pyStrip b.getStr = ""
    · rw [if_pos hblank]
      apply mapBinding_congr
      intro x hx hid
      rw [huniq x hx hid]
      unfold chk
      rw [if_neg hty]
      simp only []
      rw [if_pos hblank]
    · rw [if_neg hblank]
      cases hp : pyFloatParse (pyReplace (pyStrip b.getStr) "," ".") with
      | none =>
        simp only [hp]
        symm
        apply mapBinding_id
        intro x hx hid
        rw [huniq x hx hid]
        unfold chk
        rw [if_neg hty, if_neg hblank, hp]
      | some val0 =>
        simp only [hp]
        rcases hcr : currentRefRange s.gender b.meta with ⟨o1, o2⟩
        cases hprec : b.meta.precision with
        | none =>
          simp only [hprec]
          cases o1 with
          | none =>
            simp only [hcr]
            symm
            apply mapBinding_id
            intro x hx hid
            rw [huniq x hx hid]
            unfold chk
            rw [if_neg hty, if_neg hblank, hp]
            simp only [hprec, hcr]
          | some lo =>
            cases o2 with
            | none =>
              simp only [hcr]
              symm
              apply mapBinding_id
              intro x hx hid
              rw [huniq x hx hid]
              unfold chk
              rw [if_neg hty, if_neg hblank, hp]
              simp only [hprec, hcr]
            | some hi =>
              simp only [hcr]
              apply mapBinding_congr
              intro x hx hid
              rw [huniq x hx hid]
              unfold chk
              rw [if_neg hty, if_neg hblank, hp]
              simp only [hprec, hcr]
        | some p =>
          by_cases hle : b.widget.isLineEdit = true
          · simp only [hprec, hle, if_true]
            cases o1 with
            | none =>
              simp only [hcr]
              apply mapBinding_congr
              intro x hx hid
              rw [huniq x hx hid]
              unfold chk
              rw [if_neg hty, if_neg hblank, hp]
              simp only [hprec, hle, if_true, hcr]
            | some lo =>
              cases o2 with
              | none =>
                simp only [hcr]
                apply mapBinding_congr
                intro x hx hid
                rw [huniq x hx hid]
                unfold chk
                rw [if_neg hty, if_neg hblank, hp]
                simp only [hprec, hle, if_true, hcr]
              | some hi =>
                simp only [hcr]
                rw [mapBinding_comp s fid
                  (fun b2 =>
                    { meta := b2.meta, widget := b2.widget
                      containerVisible := b2.containerVisible
                      labelVisible := b2.labelVisible
                      flagged := decide ¬ (lo.ble (roundPrec val0 p) = true ∧
                        (roundPrec val0 p).ble hi = true) })
                  (fun b2 =>
                    { meta := b2.meta
                      widget := b2.widget.setStr
                        (pyReplace (formatFixed (roundPrec val0 p) p) "." ",")
                      containerVisible := b2.containerVisible
                      labelVisible := b2.labelVisible
                      flagged := b2.flagged })
                  (fun _ => rfl)]
                apply mapBinding_congr
                intro x hx hid
                rw [huniq x hx hid]
                unfold chk
                rw [if_neg hty, if_neg hblank, hp]
                simp only [hprec, hle, if_true, hcr]
          · simp only [hprec, hle, Bool.false_eq_true, if_false]
            cases o1 with
            | none =>
              simp only [hcr]
              symm
              apply mapBinding_id
              intro x hx hid
              rw [huniq x hx hid]
              unfold chk
              rw [if_neg hty, if_neg hblank, hp]
              simp only [hprec, hle, Bool.false_eq_true, if_false, hcr]
            | some lo =>
              cases o2 with
              | none =>
                simp only [hcr]
                symm
                apply mapBinding_id
                intro x hx hid
                rw [huniq x hx hid]
                unfold chk
                rw [if_neg hty, if_neg hblank, hp]
                simp only [hprec, hle, Bool.false_eq_true, if_false, hcr]
              | some hi =>
                simp only [hcr]
                apply mapBinding_congr
                intro x hx hid
                rw [huniq x hx hid]
                unfold chk
                rw [if_neg hty, if_neg hblank, hp]
                simp only [hprec, hle, Bool.false_eq_true, if_false, hcr]

/-- One recomputation iteration on a formula field is the by-id update with
`procFormula` at the evaluation result. -/
theorem recalcStep_eq_mapBinding (s : EngState) (i : Nat) (b : Binding) (fl : String)
    (hnd : NodupIds s)
    (hi : s.fields.get? i = some b)
    (hty : b.meta.field_type = "формула")
    (hf : b.meta.formula = some fl) (hne : fl ≠ "") :
    recalcStep s i = s.mapBinding b.meta.id
      (procFormula s.gender (evaluateFormula s fl)) := by
  have hb : s.findBinding b.meta.id = some b := findBinding_of_get s hnd hi
  have huniq : ∀ x ∈ s.fields, x.meta.id = b.meta.id → x = b :=
    fun x hx hid => findBinding_unique s hnd hb hx hid
  unfold recalcStep
  rw [hi]
  simp only []
  rw [if_neg (by rw [hty]; simp), hf]
  simp only []
  rw [if_neg hne]
  cases heval : evaluateFormula s fl with
  | none =>
    simp only []
    apply mapBinding_congr
    intro x hx hid
    rw [huniq x hx hid]
    rfl
  | some r =>
    simp only []
    have hnd2 : NodupIds (s.mapBinding b.meta.id (fun b2 =>
        { meta := b2.meta
          widget := b2.widget.setStr (match b.meta.precision with
            | some p => pyReplace (formatFixed (roundPrec r p) p) "." ","
            | none => pyReplace (pyFloatRepr r) "." ",")
          containerVisible := b2.containerVisible
          labelVisible := b2.labelVisible
          flagged := b2.flagged })) := by
      refine nodup_of_metas_eq ?_ hnd
      exact metas_mapBinding_wf s b.meta.id _ _
    have hb2 := findBinding_mapBinding_wf_self hb
      (fun b2 => b2.widget.setStr (match b.meta.precision with
        | some p => pyReplace (formatFixed (roundPrec r p) p) "." ","
        | none => pyReplace (pyFloatRepr r) "." ","))
      (fun b2 => b2.flagged)
    rw [checkReference_eq_mapBinding _ _ _ hnd2 hb2]
    simp only [mapBinding_gender]
    rw [mapBinding_comp s b.meta.id (chk s.gender)
      (fun b2 =>
        { meta := b2.meta
          widget := b2.widget.setStr (match b.meta.precision with
            | some p => pyReplace (formatFixed (roundPrec r p) p) "." ","
            | none => pyReplace (pyFloatRepr r) "." ",")
          containerVisible := b2.containerVisible
          labelVisible := b2.labelVisible
          flagged := b2.flagged })
      (fun _ => rfl)]
    apply mapBinding_congr
    intro x hx hid
    rw [huniq x hx hid]
    rfl

/-- Every recomputation iteration is the identity or a `procFormula`
update on a nonempty-formula field. -/
theorem recalcStep_shape (s : EngState) (i : Nat) (hnd : NodupIds s) :
    recalcStep s i = s ∨
    ∃ b fl, s.fields.get? i = some b ∧ b.meta.field_type = "формула" ∧
      b.meta.formula = some fl ∧ fl ≠ "" ∧
      recalcStep s i = s.mapBinding b.meta.id
        (procFormula s.gender (evaluateFormula s fl)) := by
  cases hi : s.fields.get? i with
  | none =>
    left
    unfold recalcStep
    rw [hi]
  | some b =>
    by_cases hty : b.meta.field_type = "формула"
    · cases hf : b.meta.formula with
      | none =>
        left
        unfold recalcStep
        rw [hi]
        simp only []
        rw [if_neg (by rw [hty]; simp), hf]
      | some fl =>
        by_cases hne : fl = ""
        · left
          unfold recalcStep
          rw [hi]
          simp only []
          rw [if_neg (by rw [hty]; simp), hf]
          simp only []
          rw [if_pos hne]
        · right
          refine ⟨b, fl, rfl, hty, hf, hne, ?_⟩
          exact recalcStep_eq_mapBinding s i b fl hnd hi hty hf hne
    · left
      unfold recalcStep
      rw [hi]
      simp only []
      rw [if_pos hty]

/-- `set_str` keeps the widget's kind. -/
theorem setStr_isLineEdit (w : Widget) (t : String) :
    (w.setStr t).isLineEdit = w.isLineEdit := by
  cases w <;> simp only [Widget.setStr, Widget.isLineEdit]
  · cases parseDate t <;> rfl
  · cases parseTime t <;> rfl

theorem isLineEdit_iff (w : Widget) :
    w.isLineEdit = true ↔ ∃ a, w = Widget.lineEdit a := by
  cases w <;> simp [Widget.isLineEdit]

set_option maxHeartbeats 2000000 in
/-- `_check_reference`'s per-binding effect, abstracted over the incoming
flag: it either writes a determined widget and a determined flag, or a
determined widget leaving the flag alone; the widget is unchanged unless
the field is a line edit. -/
theorem chk_split (g : String) (x : Binding) :
    (∃ W F, (W = x.widget ∨ ∃ v, x.widget.isLineEdit = true ∧ W = Widget.lineEdit v) ∧
      ∀ y, y.meta = x.meta → y.widget = x.widget →
        chk g y = { y with widget := W, flagged := F }) ∨
    (∃ W, (W = x.widget ∨ ∃ v, x.widget.isLineEdit = true ∧ W = Widget.lineEdit v) ∧
      ∀ y, y.meta = x.meta → y.widget = x.widget →
        chk g y = { y with widget := W }) := by
  have hgs : ∀ (y : Binding), y.widget = x.widget → y.getStr = x.getStr := by
    intro y hw
    unfold Binding.getStr
    rw [hw]
  by_cases hty : x.meta.field_type ≠ "число" ∧ x.meta.field_type ≠ "формула"
  · right
    refine ⟨x.widget, Or.inl rfl, ?_⟩
    intro y hm hw
    have hy : chk g y = y := by
      unfold chk
      rw [if_pos (by rw [hm]; exact hty)]
    rw [hy, ← hw]
  · by_cases hblank : pyStrip x.getStr = ""
    · left
      refine ⟨x.widget, false, Or.inl rfl, ?_⟩
      intro y hm hw
      unfold chk
      rw [if_neg (by rw [hm]; exact hty)]
      simp only []
      rw [hgs y hw, if_pos hblank, ← hw]
    · cases hp : pyFloatParse (pyReplace (pyStrip x.getStr) "," ".") with
      | none =>
        right
        refine ⟨x.widget, Or.inl rfl, ?_⟩
        intro y hm hw
        unfold chk
        rw [if_neg (by rw [hm]; exact hty)]
        simp only []
        rw [hgs y hw, if_neg hblank, hp, ← hw]
      | some val0 =>
        rcases hcr : currentRefRange g x.meta with ⟨o1, o2⟩
        cases hprec : x.meta.precision with
        | none =>
          cases o1 with
          | some lo =>
            cases o2 with
            | some hi =>
              left
              refine ⟨x.widget,
                decide ¬ (lo.ble val0 = true ∧ val0.ble hi = true), Or.inl rfl, ?_⟩
              intro y hm hw
              unfold chk
              rw [if_neg (by rw [hm]; exact hty)]
              simp only []
              rw [hgs y hw, if_neg hblank, hp, hm]
              simp only [hprec, hcr]
              first
              | rfl
              | rw [← hm, ← hw]
              | rw [← hm]
            | none =>
              right
              refine ⟨x.widget, Or.inl rfl, ?_⟩
              intro y hm hw
              unfold chk
              rw [if_neg (by rw [hm]; exact hty)]
              simp only []
              rw [hgs y hw, if_neg hblank, hp, hm]
              simp only [hprec, hcr]
              first
              | rfl
              | rw [← hm, ← hw]
              | rw [← hm]
          | none =>
            right
            refine ⟨x.widget, Or.inl rfl, ?_⟩
            intro y hm hw
            unfold chk
            rw [if_neg (by rw [hm]; exact hty)]
            simp only []
            rw [hgs y hw, if_neg hblank, hp, hm]
            simp only [hprec, hcr]
            first
            | rfl
            | rw [← hm, ← hw]
            | rw [← hm]
        | some p =>
          by_cases hle : x.widget.isLineEdit = true
          · obtain ⟨a, ha⟩ := (isLineEdit_iff x.widget).mp hle
            cases o1 with
            | some lo =>
              cases o2 with
              | some hi =>
                left
                refine ⟨Widget.lineEdit (pyReplace (formatFixed (roundPrec val0 p) p) "." ","),
                  decide ¬ (lo.ble (roundPrec val0 p) = true ∧
                    (roundPrec val0 p).ble hi = true),
                  Or.inr ⟨_, hle, rfl⟩, ?_⟩
                intro y hm hw
                unfold chk
                rw [if_neg (by rw [hm]; exact hty)]
                simp only []
                rw [hgs y hw, if_neg hblank, hp, hm, hw, ha]
                simp only [hprec, hcr, Widget.isLineEdit, Widget.setStr,
                  eq_self_iff_true, if_true]
              | none =>
                right
                refine ⟨Widget.lineEdit (pyReplace (formatFixed (roundPrec val0 p) p) "." ","),
                  Or.inr ⟨_, hle, rfl⟩, ?_⟩
                intro y hm hw
                unfold chk
                rw [if_neg (by rw [hm]; exact hty)]
                simp only []
                rw [hgs y hw, if_neg hblank, hp, hm, hw, ha]
                simp only [hprec, hcr, Widget.isLineEdit, Widget.setStr,
                  eq_self_iff_true, if_true]
            | none =>
              right
              refine ⟨Widget.lineEdit (pyReplace (formatFixed (roundPrec val0 p) p) "." ","),
                Or.inr ⟨_, hle, rfl⟩, ?_⟩
              intro y hm hw
              unfold chk
              rw [if_neg (by rw [hm]; exact hty)]
              simp only []
              rw [hgs y hw, if_neg hblank, hp, hm, hw, ha]
              simp only [hprec, hcr, Widget.isLineEdit, Widget.setStr,
                eq_self_iff_true, if_true]
          · have hle2 : x.widget.isLineEdit = false := by
              cases h2 : x.widget.isLineEdit
              · rfl
              · exact absurd h2 hle
            cases o1 with
            | some lo =>
              cases o2 with
              | some hi =>
                left
                refine ⟨x.widget,
                  decide ¬ (lo.ble (roundPrec val0 p) = true ∧
                    (roundPrec val0 p).ble hi = true), Or.inl rfl, ?_⟩
                intro y hm hw
                unfold chk
                rw [if_neg (by rw [hm]; exact hty)]
                simp only []
                rw [hgs y hw, if_neg hblank, hp, hm, hw]
                simp only [hprec, hcr, hle2, Bool.false_eq_true, if_false]
                first
                | rfl
                | rw [← hm, ← hw]
                | rw [← hm]
              | none =>
                right
                refine ⟨x.widget, Or.inl rfl, ?_⟩
                intro y hm hw
                unfold chk
                rw [if_neg (by rw [hm]; exact hty)]
                simp only []
                rw [hgs y hw, if_neg hblank, hp, hm, hw]
                simp only [hprec, hcr, hle2, Bool.false_eq_true, if_false]
                first
                | rfl
                | rw [← hm, ← hw]
                | rw [← hm]
            | none =>
              right
              refine ⟨x.widget, Or.inl rfl, ?_⟩
              intro y hm hw
              unfold chk
              rw [if_neg (by rw [hm]; exact hty)]
              simp only []
              rw [hgs y hw, if_neg hblank, hp, hm, hw]
              simp only [hprec, hcr, hle2, Bool.false_eq_true, if_false]
              first
              | rfl
              | rw [← hm, ← hw]
              | rw [← hm]

/-- Re-writing the same text and re-checking is stable: the second
write-and-check reproduces the first check's result. -/
theorem chk_write_stable (g : String) (b : Binding) (txt : String) :
    chk g { chk g { b with widget := b.widget.setStr txt } with
      widget := (chk g { b with widget := b.widget.setStr txt }).widget.setStr txt } =
    chk g { b with widget := b.widget.setStr txt } := by
  have hWtxt : ∀ W : Widget,
      (W = ({ b with widget := b.widget.setStr txt } : Binding).widget ∨
        ∃ v, ({ b with widget := b.widget.setStr txt } : Binding).widget.isLineEdit = true ∧
          W = Widget.lineEdit v) →
      W.setStr txt = b.widget.setStr txt := by
    intro W hW
    rcases hW with rfl | ⟨v, hle, rfl⟩
    · exact setStr_idem b.widget txt
    · simp only at hle
      rw [setStr_isLineEdit] at hle
      obtain ⟨a, ha⟩ := (isLineEdit_iff b.widget).mp hle
      rw [ha]
      rfl
  rcases chk_split g { b with widget := b.widget.setStr txt } with
    ⟨W, F, hWs, hY⟩ | ⟨W, hWs, hY⟩
  · have hc1 := hY { b with widget := b.widget.setStr txt } rfl rfl
    rw [hc1]
    simp only
    rw [hWtxt W hWs]
    have := hY { b with widget := b.widget.setStr txt, flagged := F } rfl rfl
    simp only at this ⊢
    rw [this]
  · have hc1 := hY { b with widget := b.widget.setStr txt } rfl rfl
    rw [hc1]
    simp only
    rw [hWtxt W hWs]
    have := hY { b with widget := b.widget.setStr txt } rfl rfl
    simp only at this ⊢
    rw [this]

/-- One `_recalculate_formulas` iteration's per-binding effect is
idempotent. -/
theorem procFormula_idem (g : String) (r : Option PyFloat) (b : Binding) :
    procFormula g r (procFormula g r b) = procFormula g r b := by
  cases r with
  | none =>
    simp only [procFormula]
    rw [setStr_idem]
  | some rv =>
    simp only [procFormula]
    have hT : ∀ w : Widget,
        (match (chk g { b with widget := w }).meta.precision with
          | some p => pyReplace (formatFixed (roundPrec rv p) p) "." ","
          | none => pyReplace (pyFloatRepr rv) "." ",") =
        (match b.meta.precision with
          | some p => pyReplace (formatFixed (roundPrec rv p) p) "." ","
          | none => pyReplace (pyFloatRepr rv) "." ",") := by
      intro w
      rw [chk_meta]
    rw [hT]
    exact chk_write_stable g b _

/-! ## C9 machinery: evaluation reads only the `evalView` -/

/-- `find?` with a predicate that factors through a projection returns
projection-equal results on projection-equal lists. -/
theorem find?_map_eq {α β : Type} (π : α → β) (q : β → Bool) :
    ∀ (l1 l2 : List α), l1.map π = l2.map π →
    (l1.find? (fun a => q (π a))).map π = (l2.find? (fun a => q (π a))).map π := by
  intro l1
  induction l1 with
  | nil =>
    intro l2 h
    cases l2 with
    | nil => rfl
    | cons b t => simp at h
  | cons a t ih =>
    intro l2 h
    cases l2 with
    | nil => simp at h
    | cons b t2 =>
      simp only [List.map_cons, List.cons.injEq] at h
      obtain ⟨h1, h2⟩ := h
      simp only [List.find?, h1]
      cases hq : q (π b) with
      | true => simp [h1]
      | false => exact ih t2 h2

/-- The fields' evaluation views agree pointwise between view-equal
states. -/
theorem eproj_fields_eq {s2 s : EngState} (h : evalView s2 = evalView s) :
    s2.fields.map eproj = s.fields.map eproj :=
  congrArg Prod.snd h

theorem pathMap_of_evalView {s2 s : EngState} (h : evalView s2 = evalView s) :
    s2.pathMap = s.pathMap :=
  congrArg Prod.fst h

/-- View-equal states carry the same meta list. -/
theorem metas_of_evalView {s2 s : EngState} (h : evalView s2 = evalView s) :
    s2.fields.map (fun b => b.meta) = s.fields.map (fun b => b.meta) := by
  have h2 := congrArg (List.map Prod.fst) (eproj_fields_eq h)
  simpa [List.map_map, Function.comp, eproj] using h2

/-- Lookup by id returns view-equal bindings in view-equal states. -/
theorem findBinding_of_evalView {s2 s : EngState} (h : evalView s2 = evalView s)
    (fid : Nat) :
    (s2.findBinding fid).map eproj = (s.findBinding fid).map eproj := by
  have := find?_map_eq eproj (fun m => m.1.id = fid)
    s2.fields s.fields (eproj_fields_eq h)
  exact this

/-- Name-fallback lookup returns view-equal bindings in view-equal
states. -/
theorem findName_of_evalView {s2 s : EngState} (h : evalView s2 = evalView s)
    (c : String) :
    (s2.fields.find? (fun b2 => pyStrip b2.meta.name = pyStrip c)).map eproj =
      (s.fields.find? (fun b2 => pyStrip b2.meta.name = pyStrip c)).map eproj := by
  have := find?_map_eq eproj (fun m => pyStrip m.1.name = pyStrip c)
    s2.fields s.fields (eproj_fields_eq h)
  exact this

/-- The consulted reference binding is view-equal in view-equal states. -/
theorem refBinding_of_evalView {s2 s : EngState} (h : evalView s2 = evalView s)
    (t : String × String × String) :
    (refBinding s2 t).map eproj = (refBinding s t).map eproj := by
  unfold refBinding
  simp only [pathMap_of_evalView h]
  cases hd : dictGetLast s.pathMap
      (pyStrip t.1 ++ "." ++ pyStrip t.2.1 ++ "." ++ pyStrip t.2.2) with
  | none =>
    simp only []
    exact findName_of_evalView h t.2.2
  | some fid =>
    simp only []
    have hfb := findBinding_of_evalView h fid
    cases h2 : s2.findBinding fid with
    | none =>
      rw [h2] at hfb
      cases h1 : s.findBinding fid with
      | none => exact findName_of_evalView h t.2.2
      | some b1 => rw [h1] at hfb; simp at hfb
    | some b2 =>
      rw [h2] at hfb
      cases h1 : s.findBinding fid with
      | none => rw [h1] at hfb; simp at hfb
      | some b1 => rw [h1] at hfb; simpa using hfb

/-- Resolution of a non-formula reference is identical in view-equal
states. -/
theorem resolveRef_of_evalView {s2 s : EngState} (h : evalView s2 = evalView s)
    (t : String × String × String)
    (hnf : ((refBinding s t).map (fun rb => rb.meta.field_type)).getD "" ≠ "формула") :
    resolveRef s2 t = resolveRef s t := by
  have hrb := refBinding_of_evalView h t
  unfold resolveRef
  cases h1 : refBinding s t with
  | none =>
    rw [h1] at hrb
    cases h2 : refBinding s2 t with
    | none => rfl
    | some b2 => rw [h2] at hrb; simp at hrb
  | some rb =>
    rw [h1] at hrb
    cases h2 : refBinding s2 t with
    | none => rw [h2] at hrb; simp at hrb
    | some rb2 =>
      rw [h2] at hrb
      simp only [Option.map_some', Option.some.injEq] at hrb
      rw [h1] at hnf
      simp only [Option.map_some', Option.getD_some] at hnf
      unfold eproj at hrb
      have hmeta : rb2.meta = rb.meta := congrArg Prod.fst hrb
      have hval := congrArg Prod.snd hrb
      simp only [hmeta, hnf, if_false] at hval
      have hstr : rb2.getStr = rb.getStr := by
        simpa using hval
      simp only []
      rw [hstr]

/-- The value-resolution loop is identical in view-equal states when every
reference consults a non-formula binding. -/
theorem buildValues_of_evalView {s2 s : EngState} (h : evalView s2 = evalView s) :
    ∀ (ts : List (String × String × String)) (acc : List (String × String)),
      (∀ t ∈ ts,
        ((refBinding s t).map (fun rb => rb.meta.field_type)).getD "" ≠ "формула") →
      buildValues s2 ts acc = buildValues s ts acc := by
  intro ts
  induction ts with
  | nil => intro acc _; rfl
  | cons hd tl ih =>
    rcases hd with ⟨a, b, c⟩
    intro acc hnf
    simp only [buildValues]
    rw [resolveRef_of_evalView h (a, b, c) (hnf (a, b, c) (List.mem_cons_self _ _))]
    cases hr : resolveRef s (a, b, c) with
    | none => rfl
    | some v => exact ih _ (fun t ht => hnf t (List.mem_cons_of_mem _ ht))

/-- Formula evaluation is identical in view-equal states when every
reference of the formula consults a non-formula binding. -/
theorem evaluateFormula_of_evalView {s2 s : EngState} (h : evalView s2 = evalView s)
    (fl : String)
    (hnf : ∀ t ∈ findTriples fl,
      ((refBinding s t).map (fun rb => rb.meta.field_type)).getD "" ≠ "формула") :
    evaluateFormula s2 fl = evaluateFormula s fl := by
  unfold evaluateFormula
  rw [buildValues_of_evalView h (findTriples fl) [] hnf]

/-- A by-id update that keeps the meta and the non-formula value keeps the
evaluation view. -/
theorem evalView_mapBinding (s : EngState) (fid : Nat) (f : Binding → Binding)
    (hmeta : ∀ b, (f b).meta = b.meta)
    (hval : ∀ x ∈ s.fields, x.meta.id = fid → x.meta.field_type ≠ "формула" →
      (f x).getStr = x.getStr) :
    evalView (s.mapBinding fid f) = evalView s := by
  unfold evalView EngState.mapBinding
  simp only [List.map_map]
  congr 1
  apply List.map_congr_left
  intro x hx
  by_cases hid : x.meta.id = fid
  · simp only [Function.comp, hid, eq_self_iff_true, if_true]
    unfold eproj
    rw [hmeta]
    by_cases hty : x.meta.field_type = "формула"
    · rw [if_pos hty, if_pos hty]
    · rw [if_neg hty, if_neg hty, hval x hx hid hty]
  · simp [Function.comp, hid]

/-- `_update_hidden` keeps the evaluation view. -/
theorem evalView_updateHidden (s : EngState) (tid : Nat) :
    evalView (updateHidden s tid) = evalView s := by
  unfold updateHidden
  split
  · rfl
  · split
    · rfl
    · unfold evalView
      simp only [List.map_map]
      congr 1
      apply List.map_congr_left
      intro x _
      simp only [Function.comp]
      split
      · rfl
      · rfl

/-- The trigger-sync loop keeps the evaluation view. -/
theorem evalView_trigSyncAll (s : EngState) :
    evalView (trigSyncAll s) = evalView s := by
  unfold trigSyncAll
  generalize s.hiddenByTrigger = l
  induction l generalizing s with
  | nil => rfl
  | cons p tl ih =>
    simp only [List.foldl_cons]
    split
    · rw [ih (updateHidden s p.1)]
      exact evalView_updateHidden s p.1
    · exact ih s

/-! ## C9 machinery: a recomputation pass settles every formula field -/

/-- Under distinct ids, bindings at distinct positions have distinct
ids. -/
theorem nodup_ids_get_ne (u : EngState) (hnd : NodupIds u) {i j : Nat} (hij : i ≠ j)
    {x y : Binding} (hx : u.fields.get? i = some x) (hy : u.fields.get? j = some y) :
    x.meta.id ≠ y.meta.id := by
  intro he
  have hxi : (u.fields.map (fun b => b.meta.id)).get? i = some x.meta.id := by
    rw [List.get?_map, hx]
    rfl
  have hyj : (u.fields.map (fun b => b.meta.id)).get? j = some y.meta.id := by
    rw [List.get?_map, hy]
    rfl
  have hlen : i < (u.fields.map (fun b => b.meta.id)).length := by
    rw [List.length_map]
    exact (List.get?_eq_some.mp hx).1
  have : i = j := List.get?_inj hlen hnd (by rw [hxi, hyj, he])
  exact hij this

/-- A binding of a view-equal intermediate state inherits the base state's
non-formula-references guarantee. -/
theorem refsNF_formula {s u : EngState} (hrefs : RefsNonFormula s)
    (hview : evalView u = evalView s) {b : Binding} (hmem : b ∈ u.fields)
    (hty : b.meta.field_type = "формула") :
    ∀ t ∈ findTriples (b.meta.formula.getD ""),
      ((refBinding s t).map (fun rb => rb.meta.field_type)).getD "" ≠ "формула" := by
  have hms := metas_of_evalView hview
  have hmm : b.meta ∈ s.fields.map (fun b => b.meta) := by
    rw [← hms]
    exact List.mem_map_of_mem _ hmem
  obtain ⟨b0, hb0, hbm⟩ := List.mem_map.mp hmm
  intro t ht
  exact hrefs b0 hb0 (by rw [hbm]; exact hty) t (by rw [hbm]; exact ht)

/-- One recomputation iteration keeps the evaluation view. -/
theorem evalView_recalcStep (u : EngState) (i : Nat) (hnd : NodupIds u) :
    evalView (recalcStep u i) = evalView u := by
  rcases recalcStep_shape u i hnd with h | ⟨b, fl, hi, hty, hf, hne, h⟩
  · rw [h]
  · rw [h]
    apply evalView_mapBinding
    · exact fun b2 => procFormula_meta _ _ b2
    · intro x hx hid hxt
      have hb : u.findBinding b.meta.id = some b := findBinding_of_get u hnd hi
      have hxb := findBinding_unique u hnd hb hx hid
      rw [hxb] at hxt
      exact absurd hty hxt

/-- Evaluation of a formula of a view-equal state only depends on the
view. -/
theorem evaluateFormula_stable {s u1 u2 : EngState} (hrefs : RefsNonFormula s)
    (hv1 : evalView u1 = evalView s) (hv2 : evalView u2 = evalView s)
    {b : Binding} (hmem : b ∈ u1.fields) (hty : b.meta.field_type = "формула")
    {fl : String} (hf : b.meta.formula = some fl) :
    evaluateFormula u2 fl = evaluateFormula u1 fl := by
  have hnf := refsNF_formula hrefs hv1 hmem hty
  rw [hf] at hnf
  simp only [Option.getD_some] at hnf
  rw [evaluateFormula_of_evalView hv2 fl hnf, evaluateFormula_of_evalView hv1 fl hnf]

/-- Without a binding at the index, an iteration does nothing. -/
theorem recalcStep_id_of_none (v : EngState) (k : Nat) (h : v.fields.get? k = none) :
    recalcStep v k = v := by
  unfold recalcStep
  rw [h]

/-- Past the list, an iteration does nothing. -/
theorem recalcStep_id_of_ge (v : EngState) (k : Nat) (h : v.fields.length ≤ k) :
    recalcStep v k = v :=
  recalcStep_id_of_none v k (List.get?_eq_none.mpr h)

/-- An iteration, once performed, is idempotent. -/
theorem recalcStep_settles {s : EngState} (hrefs : RefsNonFormula s)
    (u : EngState) (i : Nat) (hnd : NodupIds u) (hview : evalView u = evalView s) :
    recalcStep (recalcStep u i) i = recalcStep u i := by
  rcases recalcStep_shape u i hnd with h | ⟨b, fl, hi, hty, hf, hne, h⟩
  · rw [h]
    exact h
  · have hnd1 : NodupIds (recalcStep u i) :=
      nodup_of_metas_eq (metas_recalcStep u i) hnd
    have hview1 : evalView (recalcStep u i) = evalView s := by
      rw [evalView_recalcStep u i hnd]
      exact hview
    have hi1 : (recalcStep u i).fields.get? i =
        some (procFormula u.gender (evaluateFormula u fl) b) := by
      rw [h, get?_mapBinding, hi]
      simp
    have hm1 : (procFormula u.gender (evaluateFormula u fl) b).meta = b.meta :=
      procFormula_meta _ _ b
    have h2 := recalcStep_eq_mapBinding (recalcStep u i) i
      (procFormula u.gender (evaluateFormula u fl) b) fl hnd1 hi1
      (by rw [hm1]; exact hty) (by rw [hm1]; exact hf) hne
    rw [h2, hm1]
    have hmem : b ∈ u.fields := List.get?_mem hi
    have heval : evaluateFormula (recalcStep u i) fl = evaluateFormula u fl :=
      evaluateFormula_stable hrefs hview hview1 hmem hty hf
    have hg : (recalcStep u i).gender = u.gender :=
      congrArg (fun p => p.1) (statics_recalcStep u i)
    rw [heval, hg]
    conv_lhs => rw [h]
    rw [mapBinding_comp u b.meta.id
      (procFormula u.gender (evaluateFormula u fl))
      (procFormula u.gender (evaluateFormula u fl))
      (fun b2 => by rw [procFormula_meta])]
    conv_rhs => rw [h]
    apply mapBinding_congr
    intro x _ _
    exact procFormula_idem u.gender (evaluateFormula u fl) x

/-- Later iterations do not unsettle an already settled one. -/
theorem recalcStep_settled_pres {s : EngState} (hrefs : RefsNonFormula s)
    (u : EngState) (i j : Nat) (hnd : NodupIds u) (hview : evalView u = evalView s)
    (hsettled : recalcStep u i = u) :
    recalcStep (recalcStep u j) i = recalcStep u j := by
  rcases recalcStep_shape u j hnd with h | ⟨bj, flj, hj, htyj, hfj, hnej, h⟩
  · rw [h]
    exact hsettled
  · have hnd1 : NodupIds (recalcStep u j) :=
      nodup_of_metas_eq (metas_recalcStep u j) hnd
    have hview1 : evalView (recalcStep u j) = evalView s := by
      rw [evalView_recalcStep u j hnd]
      exact hview
    by_cases hij : i = j
    · subst hij
      exact recalcStep_settles hrefs u i hnd hview
    · cases hi : u.fields.get? i with
      | none =>
        have hnone : (recalcStep u j).fields.get? i = none := by
          rw [h, get?_mapBinding, hi]
          rfl
        exact recalcStep_id_of_none _ i hnone
      | some bi =>
        have hne_id : bi.meta.id ≠ bj.meta.id :=
          nodup_ids_get_ne u hnd hij hi hj
        rcases recalcStep_shape (recalcStep u j) i hnd1 with h2 |
          ⟨bi2, fli, hi2, htyi, hfi, hnei, h2⟩
        · exact h2
        · have hbi2 : bi = bi2 := by
            have : (recalcStep u j).fields.get? i = some bi := by
              rw [h, get?_mapBinding, hi]
              simp [hne_id]
            rw [this] at hi2
            exact Option.some.inj hi2
          subst hbi2
          rw [h2]
          have hstep_u : recalcStep u i =
              u.mapBinding bi.meta.id (procFormula u.gender (evaluateFormula u fli)) :=
            recalcStep_eq_mapBinding u i bi fli hnd hi htyi hfi hnei
          have hfix : u.mapBinding bi.meta.id
              (procFormula u.gender (evaluateFormula u fli)) = u := by
            rw [← hstep_u]
            exact hsettled
          have hmem : bi ∈ u.fields := List.get?_mem hi
          have heval : evaluateFormula (recalcStep u j) fli = evaluateFormula u fli :=
            evaluateFormula_stable hrefs hview hview1 hmem htyi hfi
          have hg : (recalcStep u j).gender = u.gender :=
            congrArg (fun p => p.1) (statics_recalcStep u j)
          rw [heval, hg]
          conv_lhs => rw [h]
          rw [mapBinding_comm u bi.meta.id bj.meta.id hne_id
            (procFormula u.gender (evaluateFormula u fli))
            (procFormula u.gender (evaluateFormula u flj))
            (fun b2 => by rw [procFormula_meta])
            (fun b2 => by rw [procFormula_meta])]
          rw [hfix, ← h]

/-- Running the pass from index `i` settles all indices below `i + fuel`,
keeping the invariants. -/
theorem recalcAux_settles {s : EngState} (hrefs : RefsNonFormula s) :
    ∀ (fuel i : Nat) (u : EngState), NodupIds u → evalView u = evalView s →
      (∀ k, k < i → recalcStep u k = u) →
      NodupIds (recalcAux fuel i u) ∧ evalView (recalcAux fuel i u) = evalView s ∧
        ∀ k, k < i + fuel → recalcStep (recalcAux fuel i u) k = recalcAux fuel i u := by
  intro fuel
  induction fuel with
  | zero =>
    intro i u hnd hview hset
    refine ⟨hnd, hview, ?_⟩
    intro k hk
    exact hset k (by omega)
  | succ fuel ih =>
    intro i u hnd hview hset
    have hnd1 : NodupIds (recalcStep u i) :=
      nodup_of_metas_eq (metas_recalcStep u i) hnd
    have hview1 : evalView (recalcStep u i) = evalView s := by
      rw [evalView_recalcStep u i hnd]
      exact hview
    have hset1 : ∀ k, k < i + 1 → recalcStep (recalcStep u i) k = recalcStep u i := by
      intro k hk
      by_cases hk2 : k = i
      · subst hk2
        exact recalcStep_settles hrefs u k hnd hview
      · exact recalcStep_settled_pres hrefs u k i hnd hview (hset k (by omega))
    have hrec : recalcAux (fuel + 1) i u = recalcAux fuel (i + 1) (recalcStep u i) := rfl
    rw [hrec]
    obtain ⟨ha, hb, hc⟩ := ih (i + 1) (recalcStep u i) hnd1 hview1 hset1
    refine ⟨ha, hb, ?_⟩
    intro k hk
    exact hc k (by omega)

/-- A state settled at every index is a fixpoint of the pass. -/
theorem recalcAux_fix : ∀ (fuel i : Nat) (v : EngState),
    (∀ k, recalcStep v k = v) → recalcAux fuel i v = v := by
  intro fuel
  induction fuel with
  | zero => intro i v _; rfl
  | succ fuel ih =>
    intro i v hfix
    have : recalcAux (fuel + 1) i v = recalcAux fuel (i + 1) (recalcStep v i) := rfl
    rw [this, hfix i]
    exact ih (i + 1) v hfix

/-! ## C9 machinery: the trigger pass settles every trigger -/

/-- `shownFor` reads the trigger binding only through its widget. -/
theorem shownFor_congr (tb tb2 : Binding) (m : FieldMeta)
    (hw : tb2.widget = tb.widget) : shownFor tb2 m = shownFor tb m := by
  unfold shownFor Binding.getStr
  rw [hw]

/-- With distinct keys, the trigger map returns a member entry's own
targets. -/
theorem hbtGet_nodup_mem (L : List (Nat × List Nat))
    (hkeys : (L.map (fun p => p.1)).Nodup) {p : Nat × List Nat} (hp : p ∈ L) :
    hbtGet L p.1 = some p.2 := by
  unfold hbtGet
  induction L with
  | nil => exact absurd hp (List.not_mem_nil p)
  | cons q tl ih =>
    simp only [List.map_cons, List.nodup_cons] at hkeys
    rcases List.mem_cons.mp hp with rfl | hp2
    · simp [List.find?]
    · have hne : q.1 ≠ p.1 := by
        intro he
        exact hkeys.1 (he ▸ List.mem_map_of_mem (fun r => r.1) hp2)
      simp only [List.find?]
      have hd : decide (q.1 = p.1) = false := by
        simp only [decide_eq_false_iff_not]
        exact hne
      rw [hd]
      exact ih hkeys.2 hp2

/-- A settled trigger's `_update_hidden` is the identity. -/
theorem updateHidden_id_of_settled (s : EngState) (tid : Nat)
    (hvs : VisSettled s tid) : updateHidden s tid = s := by
  cases hT : hbtGet s.hiddenByTrigger tid with
  | none =>
    unfold updateHidden
    rw [hT]
  | some targets =>
    cases htb : s.findBinding tid with
    | none =>
      unfold updateHidden
      rw [hT, htb]
    | some tb =>
      unfold updateHidden
      rw [hT, htb]
      simp only []
      have hmap : s.fields.map (fun b =>
          if targets.contains b.meta.id then
            { b with containerVisible := shownFor tb b.meta
                     labelVisible := shownFor tb b.meta }
          else b) = s.fields := by
        conv_rhs => rw [show s.fields = s.fields.map id from (List.map_id _).symm]
        apply List.map_congr_left
        intro x hx
        by_cases hc : targets.contains x.meta.id
        · have hmem : x.meta.id ∈ targets := by simpa using hc
          obtain ⟨h1, h2⟩ := hvs targets hT tb htb x hx hmem
          simp only [hc, if_true, id]
          cases x with
          | mk m w cv lv fl =>
            simp only at h1 h2
            rw [h1, h2]
        · rw [if_neg hc]
          rfl
      rw [hmap]

/-- `_update_hidden` settles its own trigger. -/
theorem updateHidden_establishes (s : EngState) (tid : Nat) :
    VisSettled (updateHidden s tid) tid := by
  cases hT : hbtGet s.hiddenByTrigger tid with
  | none =>
    intro targets hT2 tb htb x hx hmem
    rw [updateHidden, hT] at hT2 htb hx
    rw [hT] at hT2
    exact absurd hT2 (by simp [hT])
  | some targets0 =>
    cases htb0 : s.findBinding tid with
    | none =>
      intro targets hT2 tb htb x hx hmem
      have hu : updateHidden s tid = s := by
        unfold updateHidden
        rw [hT, htb0]
      rw [hu] at htb
      rw [htb0] at htb
      exact absurd htb (by simp)
    | some tb0 =>
      have hu : updateHidden s tid = { s with fields := s.fields.map (fun b =>
          if targets0.contains b.meta.id then
            { b with containerVisible := shownFor tb0 b.meta
                     labelVisible := shownFor tb0 b.meta }
          else b) } := by
        unfold updateHidden
        rw [hT, htb0]
      intro targets hT2 tb htb x hx hmem
      rw [hu] at hT2 htb hx
      have htargets : targets = targets0 := by
        have h3 : hbtGet s.hiddenByTrigger tid = some targets := hT2
        rw [hT] at h3
        exact (Option.some.inj h3).symm
      subst htargets
      have htbw : tb.widget = tb0.widget := by
        have hF := findBinding_fieldsMap s (fun b =>
          if targets.contains b.meta.id then
            { b with containerVisible := shownFor tb0 b.meta
                     labelVisible := shownFor tb0 b.meta }
          else b) (fun b => by
            simp only []
            by_cases hb : targets.contains b.meta.id = true
            · rw [if_pos hb]
            · rw [if_neg hb]) tid
        rw [htb0] at hF
        simp only [Option.map_some'] at hF
        rw [hF] at htb
        have h2 := Option.some.inj htb
        rw [← h2]
        by_cases hb : targets.contains tb0.meta.id = true
        · rw [if_pos hb]
        · rw [if_neg hb]
      obtain ⟨x0, hx0, hx0e⟩ := List.mem_map.mp hx
      have hx0m : x0.meta = x.meta := by
        rw [← hx0e]
        split <;> rfl
      have hmem0 : targets.contains x0.meta.id = true := by
        rw [hx0m]
        simpa using hmem
      have hxv : x.containerVisible = shownFor tb0 x0.meta ∧
          x.labelVisible = shownFor tb0 x0.meta := by
        rw [← hx0e, hmem0]
        simp
      rw [shownFor_congr tb0 tb x.meta htbw, ← hx0m]
      exact hxv

/-- A by-id update preserving meta, visibility, and the trigger's widget
preserves that trigger's settledness. -/
theorem visSettled_mapBinding (s : EngState) (tid fid : Nat) (f : Binding → Binding)
    (hmeta : ∀ b, (f b).meta = b.meta)
    (hvis : ∀ b, (f b).containerVisible = b.containerVisible ∧
      (f b).labelVisible = b.labelVisible)
    (hid : ∀ tb, s.findBinding tid = some tb → tb.meta.id ≠ fid)
    (hvs : VisSettled s tid) : VisSettled (s.mapBinding fid f) tid := by
  intro targets hT tb htb x hx hmem
  have hT0 : hbtGet s.hiddenByTrigger tid = some targets := hT
  cases htb0 : s.findBinding tid with
  | none =>
    have : (s.mapBinding fid f).findBinding tid = none := by
      unfold EngState.mapBinding
      rw [findBinding_fieldsMap s _
        (fun b => by by_cases hb : b.meta.id = fid <;> simp [hb, hmeta]), htb0]
      rfl
    rw [this] at htb
    exact absurd htb (by simp)
  | some tb0 =>
    have hne : tid ≠ fid := by
      have h1 := List.find?_some htb0
      simp only [decide_eq_true_eq] at h1
      rw [← h1]
      exact hid tb0 htb0
    have htb1 : (s.mapBinding fid f).findBinding tid = s.findBinding tid :=
      findBinding_mapBinding_ne f (fun b => congrArg (fun m => m.id) (hmeta b)) hne
    rw [htb1, htb0] at htb
    obtain rfl := Option.some.inj htb
    unfold EngState.mapBinding at hx
    simp only [List.mem_map] at hx
    obtain ⟨x0, hx0, hx0e⟩ := hx
    have hx0m : x0.meta = x.meta := by
      rw [← hx0e]
      by_cases hb : x0.meta.id = fid <;> simp [hb, hmeta]
    have hmem0 : x0.meta.id ∈ targets := by
      rw [hx0m]
      exact hmem
    obtain ⟨h1, h2⟩ := hvs targets hT0 tb0 htb0 x0 hx0 hmem0
    have hxv : x.containerVisible = x0.containerVisible ∧
        x.labelVisible = x0.labelVisible := by
      rw [← hx0e]
      by_cases hb : x0.meta.id = fid
      · simp [hb, hvis]
      · simp [hb]
    rw [hxv.1, hxv.2, h1, h2, ← hx0m]
    exact ⟨rfl, rfl⟩

end FormEngine
